import Mathlib

/-!
Verification of the small regular-expression engine in `nfa.cc`.

The development shallowly embeds the C++ code: the two automaton shapes
(`NFA`, `DFA`), the epsilon-closure DFS (`FollowEpsilons`), the two
simulators (`testMatch`), the subset construction (`lower`), the byte
emission of the JIT code generator, and the combinator builders
(`Char`/`And`/`Or`/`Maybe`/`OneOrMore` via `merge`).

Modelling conventions, used consistently below:
- C++ `int` state identifiers are nonnegative throughout the program, so a
  state identifier is a `Nat`; the `m_start = -1` sentinel (start not yet
  set) is modelled as `none`.
- A C++ `char` is only ever compared for equality, never used
  arithmetically, so a byte is a `Nat` (values 0..255 in the program).
- `std::set<int>` is a canonical finite set of integers; it is modelled as
  `Finset Nat`.  Where the C++ iterates over such a set, the iteration is
  in ascending order, modelled by `Finset.sort (· ≤ ·)`.
- `assert` failures and out-of-range `.at` accesses both abort the
  process; a function that can abort returns an `Option`, with `none` for
  the abort.
- General recursion (the closure DFS, the subset construction) is modelled
  with an explicit fuel argument that bounds the recursion depth; the
  program's own calls pass fuel that is proved (or checked on concrete
  inputs) to be sufficient.
-/

namespace NfaCc


/-- An NFA edge as stored in `NFA::m_states`: an optional byte label
(`none` is epsilon) and a target state. -/
abbrev NEdge := Option Nat × Nat

/-- The `NFA` struct: `m_states` (one edge list per state, indexed by
identifier), `m_start` (`none` models the `-1` sentinel) and `m_match`. -/
structure NFA where
  states : List (List NEdge)
  start : Option Nat
  accept : Finset Nat
deriving DecidableEq

/-- `FABase::addState`: append a state with no outgoing edges and return
its identifier. -/
def NFA.addState (nfa : NFA) : NFA × Nat :=
  ({ nfa with states := nfa.states ++ [[]] }, nfa.states.length)

/-- `FABase::setStart`. -/
def NFA.setStart (nfa : NFA) (s : Nat) : NFA :=
  { nfa with start := some s }

/-- `FABase::addMatch`: `assert(m_match.insert(match).second)` — inserting
an identifier already present aborts (`none`). -/
def NFA.addMatch (nfa : NFA) (m : Nat) : Option NFA :=
  if m ∈ nfa.accept then none else some { nfa with accept := insert m nfa.accept }

/-- `NFA::addEdge`: `m_states.at(from).push_back({cond, to})`.  The
bounds-checked `.at(from)` aborts when `from` is out of range; the target
`to` is not checked. -/
def NFA.addEdge (nfa : NFA) (from_ : Nat) (cond : Option Nat) (to_ : Nat) :
    Option NFA :=
  if h : from_ < nfa.states.length then
    some { nfa with states := nfa.states.set from_ (nfa.states[from_] ++ [(cond, to_)]) }
  else none

/-- Epsilon successors of a state: the targets of the `none`-labelled
edges in its edge list (an out-of-range identifier has no edges). -/
def NFA.epsSuccs (nfa : NFA) (q : Nat) : Finset Nat :=
  ((nfa.states.getD q []).filterMap (fun e => if e.1 = none then some e.2 else none)).toFinset

/-- One round of epsilon expansion: add every epsilon successor of every
member. -/
def NFA.epsStep (nfa : NFA) (s : Finset Nat) : Finset Nat :=
  s ∪ s.biUnion nfa.epsSuccs

/-- All epsilon-edge targets appearing anywhere in the NFA; a finite
universe that bounds every epsilon-closure chain. -/
def NFA.allEpsTargets (nfa : NFA) : Finset Nat :=
  (List.range nfa.states.length).toFinset.biUnion nfa.epsSuccs

/-- Mathematical epsilon closure (the specification's "least set `C ⊇ S`
closed under epsilon edges"), computed by iterating `epsStep` until the
bounded chain must have stabilised. -/
def NFA.cloSet (nfa : NFA) (s : Finset Nat) : Finset Nat :=
  nfa.epsStep^[(s ∪ nfa.allEpsTargets).card] s

theorem NFA.subset_epsStep (nfa : NFA) (s : Finset Nat) : s ⊆ nfa.epsStep s :=
  Finset.subset_union_left

theorem NFA.epsStep_mono (nfa : NFA) {s t : Finset Nat} (h : s ⊆ t) :
    nfa.epsStep s ⊆ nfa.epsStep t :=
  Finset.union_subset_union h (Finset.biUnion_subset_biUnion_of_subset_left _ h)

theorem NFA.epsSuccs_subset_allEpsTargets (nfa : NFA) {q : Nat} :
    nfa.epsSuccs q ⊆ nfa.allEpsTargets := by
  intro t ht
  by_cases hq : q < nfa.states.length
  · exact Finset.mem_biUnion.2 ⟨q, List.mem_toFinset.2 (List.mem_range.2 hq), ht⟩
  · exfalso
    simp only [NFA.epsSuccs, List.getD_eq_default _ _ (Nat.le_of_not_lt hq)] at ht
    simp at ht

theorem NFA.epsStep_subset_union (nfa : NFA) {s u : Finset Nat}
    (hs : s ⊆ u ∪ nfa.allEpsTargets) : nfa.epsStep s ⊆ u ∪ nfa.allEpsTargets := by
  apply Finset.union_subset hs
  intro t ht
  rcases Finset.mem_biUnion.1 ht with ⟨q, _, hq⟩
  exact Finset.mem_union_right _ (nfa.epsSuccs_subset_allEpsTargets hq)

theorem NFA.epsStep_iterate_subset_union (nfa : NFA) (s : Finset Nat) (k : Nat) :
    nfa.epsStep^[k] s ⊆ s ∪ nfa.allEpsTargets := by
  induction k with
  | zero => simp
  | succ k ih =>
      rw [Function.iterate_succ_apply']
      exact nfa.epsStep_subset_union ih

theorem NFA.subset_epsStep_iterate (nfa : NFA) (s : Finset Nat) (k : Nat) :
    s ⊆ nfa.epsStep^[k] s := by
  induction k with
  | zero => simp
  | succ k ih =>
      rw [Function.iterate_succ_apply']
      exact ih.trans (nfa.subset_epsStep _)

/-- A bounded strictly increasing chain stabilises: after `card` of the
bounding universe many `epsStep` rounds the result is a fixed point. -/
theorem NFA.epsStep_iterate_fixed (nfa : NFA) (u : Finset Nat) :
    ∀ (k : Nat) (s : Finset Nat), s ⊆ u ∪ nfa.allEpsTargets →
      (u ∪ nfa.allEpsTargets).card ≤ k + s.card →
      nfa.epsStep (nfa.epsStep^[k] s) = nfa.epsStep^[k] s := by
  intro k
  induction k with
  | zero =>
      intro s hsub hcard
      have heq : s = u ∪ nfa.allEpsTargets :=
        Finset.eq_of_subset_of_card_le hsub (by simpa using hcard)
      simp only [Function.iterate_zero, id]
      apply Finset.Subset.antisymm _ (nfa.subset_epsStep s)
      rw [heq]
      exact nfa.epsStep_subset_union (by simp)
  | succ k ih =>
      intro s hsub hcard
      by_cases hfix : nfa.epsStep s = s
      · rw [Function.iterate_fixed hfix, hfix]
      · have hss : s ⊆ nfa.epsStep s := nfa.subset_epsStep s
        have hlt : s.card < (nfa.epsStep s).card :=
          Finset.card_lt_card (Finset.ssubset_iff_subset_ne.2 ⟨hss, fun h => hfix h.symm⟩)
        rw [Function.iterate_succ_apply]
        exact ih (nfa.epsStep s) (nfa.epsStep_subset_union hsub) (by omega)

theorem NFA.epsStep_cloSet (nfa : NFA) (s : Finset Nat) :
    nfa.epsStep (nfa.cloSet s) = nfa.cloSet s :=
  nfa.epsStep_iterate_fixed s _ s (Finset.subset_union_left) (by omega)

theorem NFA.subset_cloSet (nfa : NFA) (s : Finset Nat) : s ⊆ nfa.cloSet s :=
  nfa.subset_epsStep_iterate s _

/-- Leastness of the closure: any epsilon-closed superset of `s` contains
`cloSet s`. -/
theorem NFA.cloSet_subset (nfa : NFA) {s c : Finset Nat}
    (hsc : s ⊆ c) (hc : ∀ q ∈ c, nfa.epsSuccs q ⊆ c) : nfa.cloSet s ⊆ c := by
  have : ∀ k, nfa.epsStep^[k] s ⊆ c := by
    intro k
    induction k with
    | zero => simpa
    | succ k ih =>
        rw [Function.iterate_succ_apply']
        apply Finset.union_subset ih
        intro t ht
        rcases Finset.mem_biUnion.1 ht with ⟨q, hq, hqt⟩
        exact hc q (ih hq) hqt
  exact this _

theorem NFA.epsSuccs_subset_cloSet (nfa : NFA) {s : Finset Nat} {q : Nat}
    (hq : q ∈ nfa.cloSet s) : nfa.epsSuccs q ⊆ nfa.cloSet s := by
  intro t ht
  have := nfa.epsStep_cloSet s
  rw [← this]
  exact Finset.mem_union_right _ (Finset.mem_biUnion.2 ⟨q, hq, ht⟩)

theorem NFA.cloSet_minimal_eq (nfa : NFA) {s c : Finset Nat}
    (hsc : s ⊆ c) (hc : ∀ q ∈ c, nfa.epsSuccs q ⊆ c)
    (hmin : ∀ d : Finset Nat, s ⊆ d → (∀ q ∈ d, nfa.epsSuccs q ⊆ d) → c ⊆ d) :
    nfa.cloSet s = c :=
  Finset.Subset.antisymm (nfa.cloSet_subset hsc hc)
    (hmin _ (nfa.subset_cloSet s) (fun _ hq => nfa.epsSuccs_subset_cloSet hq))

theorem NFA.cloSet_idem (nfa : NFA) (s : Finset Nat) :
    nfa.cloSet (nfa.cloSet s) = nfa.cloSet s :=
  Finset.Subset.antisymm
    (nfa.cloSet_subset (le_refl _) (fun _ hq => nfa.epsSuccs_subset_cloSet hq))
    (nfa.subset_cloSet (nfa.cloSet s))

theorem NFA.cloSet_empty (nfa : NFA) : nfa.cloSet ∅ = ∅ :=
  Finset.Subset.antisymm (nfa.cloSet_subset (by simp) (by simp)) (by simp)

theorem NFA.cloSet_mono (nfa : NFA) {s t : Finset Nat} (h : s ⊆ t) :
    nfa.cloSet s ⊆ nfa.cloSet t :=
  nfa.cloSet_subset (h.trans (nfa.subset_cloSet t))
    (fun _ hq => nfa.epsSuccs_subset_cloSet hq)

/-- Canonical ascending enumeration of a `Finset Nat`, modelling iteration
over a `std::set<int>` (which visits elements in ascending order).  Defined
with `insertionSort` so that it evaluates by kernel reduction. -/
def ascList (s : Finset Nat) : List Nat :=
  Quotient.lift (fun l : List Nat => l.insertionSort (· ≤ ·))
    (fun l₁ l₂ h => List.eq_of_perm_of_sorted
      (((List.perm_insertionSort _ l₁).trans h).trans (List.perm_insertionSort _ l₂).symm)
      (List.sorted_insertionSort _ l₁) (List.sorted_insertionSort _ l₂)) s.val

theorem mem_ascList {s : Finset Nat} {x : Nat} : x ∈ ascList s ↔ x ∈ s := by
  rcases s with ⟨m, nd⟩
  induction m using Quotient.inductionOn with
  | h l =>
      simp only [ascList, Quotient.lift_mk]
      constructor
      · intro hx
        have := (List.perm_insertionSort (· ≤ ·) l).mem_iff.mp hx
        simpa [Finset.mem_def] using this
      · intro hx
        apply (List.perm_insertionSort (· ≤ ·) l).mem_iff.mpr
        simpa [Finset.mem_def] using hx

theorem nodup_ascList (s : Finset Nat) : (ascList s).Nodup := by
  rcases s with ⟨m, nd⟩
  induction m using Quotient.inductionOn with
  | h l =>
      simp only [ascList, Quotient.lift_mk]
      exact (List.perm_insertionSort (· ≤ ·) l).nodup_iff.mpr
        (by simpa [Multiset.coe_nodup] using nd)

theorem ascList_empty : ascList ∅ = [] := rfl

/-- Epsilon-closedness of a state set (every epsilon successor of a member
is a member). -/
def NFA.EpsClosed (nfa : NFA) (c : Finset Nat) : Prop :=
  ∀ q ∈ c, nfa.epsSuccs q ⊆ c

theorem NFA.epsClosed_cloSet (nfa : NFA) (s : Finset Nat) :
    nfa.EpsClosed (nfa.cloSet s) :=
  fun _ hq => nfa.epsSuccs_subset_cloSet hq

/-- The recursive lambda inside `NFA::FollowEpsilons`: if `state` is
already visited return, otherwise mark it visited and recurse into the
targets of its epsilon edges.  `fuel` bounds the recursion depth (the C++
version recurses on the call stack); an out-of-range `state` models the
aborting `m_states.at(state)`. -/
def NFA.epsVisit (nfa : NFA) : Nat → Nat → Finset Nat → Option (Finset Nat)
  | 0, _, _ => none
  | fuel + 1, state, visited =>
      if state ∈ visited then some visited
      else
        match nfa.states[state]? with
        | none => none
        | some edges =>
            edges.foldlM (fun vis e =>
              match e.1 with
              | none => nfa.epsVisit fuel e.2 vis
              | some _ => some vis) (insert state visited)

/-- `NFA::FollowEpsilons` with an explicit recursion-depth bound: move the
set aside, clear it, and run the visiting DFS from every former member. -/
def NFA.followEpsilonsF (nfa : NFA) (fuel : Nat) (s : Finset Nat) :
    Option (Finset Nat) :=
  (ascList s).foldlM (fun vis st => nfa.epsVisit fuel st vis) ∅

/-- `NFA::FollowEpsilons`; the depth bound `number of states + 1` is
sufficient (`NFA.followEpsilonsF_congr` shows any larger bound gives the
same result). -/
def NFA.followEpsilons (nfa : NFA) (s : Finset Nat) : Option (Finset Nat) :=
  nfa.followEpsilonsF (nfa.states.length + 1) s

theorem foldlmSubset {α : Type} (f : Finset Nat → α → Option (Finset Nat))
    (hf : ∀ b x b', f b x = some b' → b ⊆ b') :
    ∀ (l : List α) (b b' : Finset Nat), l.foldlM f b = some b' → b ⊆ b' := by
  intro l
  induction l with
  | nil =>
      intro b b' h
      simp only [List.foldlM_nil, pure, Option.some.injEq] at h
      exact h ▸ le_refl _
  | cons x l ih =>
      intro b b' h
      rw [List.foldlM_cons] at h
      cases hfx : f b x with
      | none => rw [hfx] at h; simp at h
      | some c =>
          rw [hfx] at h
          simp only [Option.bind_eq_bind, Option.some_bind] at h
          exact (hf b x c hfx).trans (ih c b' h)

theorem foldlmInvariant {α : Type} {β : Type} (P : β → Prop) (f : β → α → Option β)
    (l : List α) (hf : ∀ b x b', x ∈ l → P b → f b x = some b' → P b') :
    ∀ (b b' : β), P b → l.foldlM f b = some b' → P b' := by
  induction l with
  | nil =>
      intro b b' hb h
      simp only [List.foldlM_nil, pure, Option.some.injEq] at h
      exact h ▸ hb
  | cons x l ih =>
      intro b b' hb h
      rw [List.foldlM_cons] at h
      cases hfx : f b x with
      | none => rw [hfx] at h; simp at h
      | some c =>
          rw [hfx] at h
          simp only [Option.bind_eq_bind, Option.some_bind] at h
          exact ih (fun b x b' hx => hf b x b' (List.mem_cons_of_mem _ hx))
            c b' (hf b x c (List.mem_cons_self _ _) hb hfx) h

theorem foldlmIsSome {α : Type} {β : Type} (P : β → Prop) (f : β → α → Option β)
    (l : List α) (hf : ∀ b x, x ∈ l → P b → ∃ b', f b x = some b' ∧ P b') :
    ∀ (b : β), P b → ∃ b', l.foldlM f b = some b' ∧ P b' := by
  induction l with
  | nil =>
      intro b hb
      exact ⟨b, by simp [List.foldlM_nil, pure], hb⟩
  | cons x l ih =>
      intro b hb
      rcases hf b x (List.mem_cons_self _ _) hb with ⟨c, hc, hPc⟩
      rcases ih (fun b x hx => hf b x (List.mem_cons_of_mem _ hx)) c hPc with ⟨b', hb', hPb'⟩
      refine ⟨b', ?_, hPb'⟩
      rw [List.foldlM_cons, hc]
      simpa using hb'

theorem foldlmEach {α : Type} (f : Finset Nat → α → Option (Finset Nat))
    (hmono : ∀ b x b', f b x = some b' → b ⊆ b') :
    ∀ (l : List α) (b b' : Finset Nat), l.foldlM f b = some b' →
      ∀ x ∈ l, ∃ c c', f c x = some c' ∧ c' ⊆ b' := by
  intro l
  induction l with
  | nil => intro b b' _ x hx; exact absurd hx (List.not_mem_nil x)
  | cons y l ih =>
      intro b b' h x hx
      rw [List.foldlM_cons] at h
      cases hfy : f b y with
      | none => rw [hfy] at h; simp at h
      | some c =>
          rw [hfy] at h
          simp only [Option.bind_eq_bind, Option.some_bind] at h
          rcases List.mem_cons.1 hx with rfl | hx
          · exact ⟨b, c, hfy, foldlmSubset f hmono l c b' h⟩
          · exact ih c b' h x hx

theorem foldlmNewElems {α : Type} (f : Finset Nat → α → Option (Finset Nat))
    (n : Nat) (succs : Nat → Finset Nat)
    (hstep : ∀ b x b', f b x = some b' →
      b ⊆ b' ∧ ∀ q ∈ b', q ∈ b ∨ (q < n ∧ succs q ⊆ b')) :
    ∀ (l : List α) (b b' : Finset Nat), l.foldlM f b = some b' →
      ∀ q ∈ b', q ∈ b ∨ (q < n ∧ succs q ⊆ b') := by
  intro l
  induction l with
  | nil =>
      intro b b' h q hq
      simp only [List.foldlM_nil, pure, Option.some.injEq] at h
      exact Or.inl (h ▸ hq)
  | cons x l ih =>
      intro b b' h q hq
      rw [List.foldlM_cons] at h
      cases hfx : f b x with
      | none => rw [hfx] at h; simp at h
      | some c =>
          rw [hfx] at h
          simp only [Option.bind_eq_bind, Option.some_bind] at h
          rcases ih c b' h q hq with hqc | hrest
          · rcases (hstep b x c hfx).2 q hqc with hqb | ⟨hlt, hsub⟩
            · exact Or.inl hqb
            · exact Or.inr ⟨hlt, hsub.trans (foldlmSubset f
                (fun b x b' h => (hstep b x b' h).1) l c b' h)⟩
          · exact Or.inr hrest

theorem NFA.epsSuccs_eq (nfa : NFA) {st : Nat} {edges : List NEdge}
    (hget : nfa.states[st]? = some edges) :
    nfa.epsSuccs st =
      (edges.filterMap (fun e => if e.1 = none then some e.2 else none)).toFinset := by
  simp [NFA.epsSuccs, List.getD_eq_getElem?_getD, hget]

theorem NFA.mem_epsSuccs_of_edge (nfa : NFA) {st : Nat} {edges : List NEdge}
    (hget : nfa.states[st]? = some edges) {e : NEdge} (he : e ∈ edges) (heps : e.1 = none) :
    e.2 ∈ nfa.epsSuccs st := by
  rw [nfa.epsSuccs_eq hget]
  simp only [List.mem_toFinset, List.mem_filterMap]
  exact ⟨e, he, by simp [heps]⟩

theorem NFA.epsVisit_mono (nfa : NFA) :
    ∀ (fuel : Nat) (st : Nat) (v v' : Finset Nat),
      nfa.epsVisit fuel st v = some v' → v ⊆ v' := by
  intro fuel
  induction fuel with
  | zero => intro st v v' h; simp [NFA.epsVisit] at h
  | succ fuel ih =>
      intro st v v' h
      simp only [NFA.epsVisit] at h
      by_cases hst : st ∈ v
      · rw [if_pos hst] at h
        exact (Option.some.injEq _ _ ▸ h) ▸ le_refl _
      · rw [if_neg hst] at h
        cases hget : nfa.states[st]? with
        | none => rw [hget] at h; simp at h
        | some edges =>
            rw [hget] at h
            refine (Finset.subset_insert st v).trans
              (foldlmSubset _ ?_ edges _ _ h)
            intro b e b' hb
            match he : e.1 with
            | none => exact ih e.2 b b' (by rw [he] at hb; exact hb)
            | some c =>
                rw [he] at hb
                simp only [Option.some.injEq] at hb
                exact hb ▸ le_refl _

theorem NFA.epsVisit_mem (nfa : NFA) {fuel : Nat} {st : Nat} {v v' : Finset Nat}
    (h : nfa.epsVisit fuel st v = some v') : st ∈ v' := by
  match fuel with
  | 0 => simp [NFA.epsVisit] at h
  | fuel + 1 =>
      simp only [NFA.epsVisit] at h
      by_cases hst : st ∈ v
      · rw [if_pos hst] at h
        simp only [Option.some.injEq] at h
        exact h ▸ hst
      · rw [if_neg hst] at h
        cases hget : nfa.states[st]? with
        | none => rw [hget] at h; simp at h
        | some edges =>
            rw [hget] at h
            have := foldlmSubset _ (fun b e b' hb => ?_) edges _ _ h
            · exact this (Finset.mem_insert_self st v)
            · match he : e.1 with
              | none => exact nfa.epsVisit_mono fuel e.2 b b' (by rw [he] at hb; exact hb)
              | some c =>
                  rw [he] at hb
                  simp only [Option.some.injEq] at hb
                  exact hb ▸ le_refl _

/-- Everything the DFS ever visits stays inside any epsilon-closed set
containing the initial state and the already-visited set. -/
theorem NFA.epsVisit_subset (nfa : NFA) {C : Finset Nat} (hC : nfa.EpsClosed C) :
    ∀ (fuel : Nat) (st : Nat) (v v' : Finset Nat),
      st ∈ C → v ⊆ C → nfa.epsVisit fuel st v = some v' → v' ⊆ C := by
  intro fuel
  induction fuel with
  | zero => intro st v v' _ _ h; simp [NFA.epsVisit] at h
  | succ fuel ih =>
      intro st v v' hstC hvC h
      simp only [NFA.epsVisit] at h
      by_cases hst : st ∈ v
      · rw [if_pos hst] at h
        simp only [Option.some.injEq] at h
        exact h ▸ hvC
      · rw [if_neg hst] at h
        cases hget : nfa.states[st]? with
        | none => rw [hget] at h; simp at h
        | some edges =>
            rw [hget] at h
            refine foldlmInvariant (fun b => b ⊆ C) _ edges ?_ _ _
              (Finset.insert_subset hstC hvC) h
            intro b e b' he hbC hb
            match heps : e.1 with
            | none =>
                rw [heps] at hb
                have htC : e.2 ∈ C := hC st hstC (nfa.mem_epsSuccs_of_edge hget he heps)
                exact ih e.2 b b' htC hbC hb
            | some c =>
                rw [heps] at hb
                simp only [Option.some.injEq] at hb
                exact hb ▸ hbC

/-- Every state in a successful DFS result is either an old member of the
visited set or a newly visited in-range state whose epsilon successors are
all in the result. -/
theorem NFA.epsVisit_new (nfa : NFA) :
    ∀ (fuel : Nat) (st : Nat) (v v' : Finset Nat),
      nfa.epsVisit fuel st v = some v' →
      ∀ q ∈ v', q ∈ v ∨ (q < nfa.states.length ∧ nfa.epsSuccs q ⊆ v') := by
  intro fuel
  induction fuel with
  | zero => intro st v v' h; simp [NFA.epsVisit] at h
  | succ fuel ih =>
      intro st v v' h q hq
      simp only [NFA.epsVisit] at h
      by_cases hst : st ∈ v
      · rw [if_pos hst] at h
        simp only [Option.some.injEq] at h
        exact Or.inl (h ▸ hq)
      · rw [if_neg hst] at h
        cases hget : nfa.states[st]? with
        | none => rw [hget] at h; simp at h
        | some edges =>
            rw [hget] at h
            have hmono : ∀ (b : Finset Nat) (e : NEdge) b',
                (fun vis e => match e.1 with
                  | none => nfa.epsVisit fuel e.2 vis
                  | some _ => some vis : Finset Nat → NEdge → Option (Finset Nat))
                  b e = some b' → b ⊆ b' := by
              intro b e b' hb
              match he : e.1 with
              | none =>
                  simp only [he] at hb
                  exact nfa.epsVisit_mono fuel e.2 b b' hb
              | some c =>
                  simp only [he, Option.some.injEq] at hb
                  exact hb ▸ le_refl _
            have hstep : ∀ (b : Finset Nat) (e : NEdge) b',
                (fun vis e => match e.1 with
                  | none => nfa.epsVisit fuel e.2 vis
                  | some _ => some vis : Finset Nat → NEdge → Option (Finset Nat))
                  b e = some b' →
                b ⊆ b' ∧ ∀ q ∈ b', q ∈ b ∨ (q < nfa.states.length ∧ nfa.epsSuccs q ⊆ b') := by
              intro b e b' hb
              refine ⟨hmono b e b' hb, ?_⟩
              match he : e.1 with
              | none =>
                  simp only [he] at hb
                  exact ih e.2 b b' hb
              | some c =>
                  simp only [he, Option.some.injEq] at hb
                  intro q hq
                  exact Or.inl (hb ▸ hq)
            rcases foldlmNewElems _ nfa.states.length nfa.epsSuccs hstep edges _ _ h q hq
              with hqin | hrest
            · rcases Finset.mem_insert.1 hqin with rfl | hqv
              · refine Or.inr ⟨?_, ?_⟩
                · rcases List.getElem?_eq_some_iff.1 hget with ⟨hlt, _⟩
                  exact hlt
                · intro t ht
                  rw [nfa.epsSuccs_eq hget] at ht
                  simp only [List.mem_toFinset, List.mem_filterMap] at ht
                  rcases ht with ⟨e, he, hfe⟩
                  have heps : e.1 = none := by
                    by_contra hne
                    rcases Option.ne_none_iff_exists'.1 hne with ⟨c, hc⟩
                    rw [hc] at hfe
                    simp at hfe
                  have ht2 : e.2 = t := by
                    rw [heps] at hfe
                    simpa using hfe
                  rcases foldlmEach _ hmono edges _ _ h e he with ⟨c, c', hcall, hsub⟩
                  rw [heps] at hcall
                  exact ht2 ▸ hsub (nfa.epsVisit_mem hcall)
              · exact Or.inl hqv
            · exact Or.inr hrest

theorem cardLtOfMem {s : Finset Nat} {n : Nat} (hall : ∀ q ∈ s, q < n) : s.card ≤ n := by
  have : s ⊆ Finset.range n := fun q hq => Finset.mem_range.2 (hall q hq)
  simpa using Finset.card_le_card this

/-- Termination of the closure DFS: with fuel exceeding the number of
unvisited in-range states, the DFS returns (even on cyclic epsilon
graphs), provided the closure being explored stays in range. -/
theorem NFA.epsVisit_isSome (nfa : NFA) :
    ∀ (fuel : Nat) (st : Nat) (v : Finset Nat),
      (∀ q ∈ nfa.cloSet (insert st v), q < nfa.states.length) →
      nfa.states.length < fuel + v.card →
      ∃ v', nfa.epsVisit fuel st v = some v' := by
  intro fuel
  induction fuel with
  | zero =>
      intro st v hclo hcard
      exfalso
      have hv : v.card ≤ nfa.states.length :=
        cardLtOfMem (fun q hq => hclo q (nfa.subset_cloSet _ (Finset.mem_insert_of_mem hq)))
      omega
  | succ fuel ih =>
      intro st v hclo hcard
      by_cases hst : st ∈ v
      · exact ⟨v, by simp [NFA.epsVisit, hst]⟩
      · have hstlt : st < nfa.states.length :=
          hclo st (nfa.subset_cloSet _ (Finset.mem_insert_self st v))
        have hget : nfa.states[st]? = some nfa.states[st] := List.getElem?_eq_getElem hstlt
        have hstart : insert st v ⊆ nfa.cloSet (insert st v) := nfa.subset_cloSet _
        have hfold := foldlmIsSome
          (fun vis => insert st v ⊆ vis ∧ vis ⊆ nfa.cloSet (insert st v))
          (fun vis e => match e.1 with
            | none => nfa.epsVisit fuel e.2 vis
            | some _ => some vis) nfa.states[st] ?_ (insert st v) ⟨le_refl _, hstart⟩
        · rcases hfold with ⟨v', hv', _⟩
          refine ⟨v', ?_⟩
          simp only [NFA.epsVisit, if_neg hst, hget]
          exact hv'
        · intro b e he hPb
          match heps : e.1 with
          | some c => exact ⟨b, by simp [heps], hPb⟩
          | none =>
              have htgt : e.2 ∈ nfa.cloSet (insert st v) :=
                nfa.epsClosed_cloSet _ st (nfa.subset_cloSet _ (Finset.mem_insert_self st v))
                  (nfa.mem_epsSuccs_of_edge hget he heps)
              have hins : insert e.2 b ⊆ nfa.cloSet (insert st v) :=
                Finset.insert_subset htgt hPb.2
              have hclo2 : ∀ q ∈ nfa.cloSet (insert e.2 b), q < nfa.states.length := by
                intro q hq
                apply hclo
                have := (nfa.cloSet_mono hins).trans (le_of_eq (nfa.cloSet_idem _))
                exact this hq
              have hcard2 : nfa.states.length < fuel + b.card := by
                have h1 : (insert st v).card ≤ b.card := Finset.card_le_card hPb.1
                rw [Finset.card_insert_of_not_mem hst] at h1
                omega
              rcases ih e.2 b hclo2 hcard2 with ⟨b', hb'⟩
              refine ⟨b', by simp only [heps]; exact hb', ?_, ?_⟩
              · exact hPb.1.trans (nfa.epsVisit_mono fuel e.2 b b' hb')
              · exact nfa.epsVisit_subset (nfa.epsClosed_cloSet _) fuel e.2 b b' htgt hPb.2 hb'

/-- The DFS result does not depend on the fuel, once the fuel exceeds the
number of in-range states not yet visited. -/
theorem NFA.epsVisit_congr (nfa : NFA) :
    ∀ (fuel₁ fuel₂ : Nat) (st : Nat) (v : Finset Nat),
      nfa.states.length < fuel₁ + (v ∩ Finset.range nfa.states.length).card →
      nfa.states.length < fuel₂ + (v ∩ Finset.range nfa.states.length).card →
      nfa.epsVisit fuel₁ st v = nfa.epsVisit fuel₂ st v := by
  intro fuel₁
  induction fuel₁ with
  | zero =>
      intro fuel₂ st v h₁ _
      exfalso
      have : (v ∩ Finset.range nfa.states.length).card ≤ nfa.states.length :=
        cardLtOfMem (fun q hq => Finset.mem_range.1 (Finset.mem_inter.1 hq).2)
      omega
  | succ fuel₁ ih =>
      intro fuel₂ st v h₁ h₂
      have hle : (v ∩ Finset.range nfa.states.length).card ≤ nfa.states.length :=
        cardLtOfMem (fun q hq => Finset.mem_range.1 (Finset.mem_inter.1 hq).2)
      match fuel₂ with
      | 0 => omega
      | fuel₂ + 1 =>
          simp only [NFA.epsVisit]
          by_cases hst : st ∈ v
          · rw [if_pos hst, if_pos hst]
          · rw [if_neg hst, if_neg hst]
            cases hget : nfa.states[st]? with
            | none => rfl
            | some edges =>
                have hstlt : st < nfa.states.length :=
                  (List.getElem?_eq_some_iff.1 hget).1
                have hcins : ((insert st v) ∩ Finset.range nfa.states.length).card
                    = (v ∩ Finset.range nfa.states.length).card + 1 := by
                  rw [Finset.insert_inter_of_mem (Finset.mem_range.2 hstlt)]
                  exact Finset.card_insert_of_not_mem
                    (fun hmem => hst (Finset.mem_inter.1 hmem).1)
                have hgen : ∀ (es : List NEdge) (vis : Finset Nat),
                    nfa.states.length < fuel₁ + (vis ∩ Finset.range nfa.states.length).card →
                    nfa.states.length < fuel₂ + (vis ∩ Finset.range nfa.states.length).card →
                    es.foldlM (fun vis e => match e.1 with
                      | none => nfa.epsVisit fuel₁ e.2 vis
                      | some _ => some vis) vis
                    = es.foldlM (fun vis e => match e.1 with
                      | none => nfa.epsVisit fuel₂ e.2 vis
                      | some _ => some vis) vis := by
                  intro es
                  induction es with
                  | nil => intro vis _ _; rfl
                  | cons e es ihes =>
                      intro vis hv₁ hv₂
                      rw [List.foldlM_cons, List.foldlM_cons]
                      match heps : e.1 with
                      | some c => exact ihes vis hv₁ hv₂
                      | none =>
                          simp only [heps]
                          rw [ih fuel₂ e.2 vis hv₁ hv₂]
                          cases hcall : nfa.epsVisit fuel₂ e.2 vis with
                          | none => rfl
                          | some vis' =>
                              simp only [Option.bind_eq_bind, Option.some_bind]
                              have hsub : vis ⊆ vis' := nfa.epsVisit_mono _ _ _ _ hcall
                              have hmono : (vis ∩ Finset.range nfa.states.length).card
                                  ≤ (vis' ∩ Finset.range nfa.states.length).card :=
                                Finset.card_le_card
                                  (Finset.inter_subset_inter hsub (le_refl _))
                              exact ihes vis' (by omega) (by omega)
                exact hgen edges (insert st v) (by omega) (by omega)

theorem NFA.followEpsilonsF_congr (nfa : NFA) {fuel₁ fuel₂ : Nat}
    (h₁ : nfa.states.length + 1 ≤ fuel₁) (h₂ : nfa.states.length + 1 ≤ fuel₂)
    (s : Finset Nat) : nfa.followEpsilonsF fuel₁ s = nfa.followEpsilonsF fuel₂ s := by
  unfold NFA.followEpsilonsF
  have hgen : ∀ (l : List Nat) (vis : Finset Nat),
      l.foldlM (fun vis st => nfa.epsVisit fuel₁ st vis) vis
      = l.foldlM (fun vis st => nfa.epsVisit fuel₂ st vis) vis := by
    intro l
    induction l with
    | nil => intro vis; rfl
    | cons st l ihl =>
        intro vis
        rw [List.foldlM_cons, List.foldlM_cons]
        rw [nfa.epsVisit_congr fuel₁ fuel₂ st vis (by omega) (by omega)]
        cases nfa.epsVisit fuel₂ st vis with
        | none => rfl
        | some vis' => simpa using ihl vis'
  exact hgen (ascList s) ∅

/-- Soundness of `FollowEpsilons`: a successful run computes exactly the
mathematical epsilon closure, and every state it returns is in range. -/
theorem NFA.followEpsilons_sound (nfa : NFA) {s T : Finset Nat}
    (h : nfa.followEpsilons s = some T) :
    T = nfa.cloSet s ∧ ∀ q ∈ T, q < nfa.states.length := by
  unfold NFA.followEpsilons NFA.followEpsilonsF at h
  have hmono : ∀ (b : Finset Nat) (st : Nat) (b' : Finset Nat),
      nfa.epsVisit (nfa.states.length + 1) st b = some b' → b ⊆ b' :=
    fun b st b' hb => nfa.epsVisit_mono _ _ _ _ hb
  have hnew : ∀ q ∈ T, q ∈ (∅ : Finset Nat) ∨
      (q < nfa.states.length ∧ nfa.epsSuccs q ⊆ T) := by
    refine foldlmNewElems _ nfa.states.length nfa.epsSuccs ?_ (ascList s) ∅ T h
    intro b st b' hb
    exact ⟨hmono b st b' hb, nfa.epsVisit_new _ _ _ _ hb⟩
  have hrange : ∀ q ∈ T, q < nfa.states.length := by
    intro q hq
    rcases hnew q hq with hq0 | ⟨hlt, _⟩
    · simp at hq0
    · exact hlt
  have hclosed : nfa.EpsClosed T := by
    intro q hq
    rcases hnew q hq with hq0 | ⟨_, hsub⟩
    · simp at hq0
    · exact hsub
  have hsT : s ⊆ T := by
    intro st hst
    rcases foldlmEach _ hmono (ascList s) ∅ T h st (mem_ascList.2 hst) with ⟨c, c', hc, hsub⟩
    exact hsub (nfa.epsVisit_mem hc)
  have hTclo : T ⊆ nfa.cloSet s := by
    refine foldlmInvariant (fun b => b ⊆ nfa.cloSet s) _ (ascList s) ?_ ∅ T (by simp) h
    intro b st b' hstl hbsub hb
    exact nfa.epsVisit_subset (nfa.epsClosed_cloSet s) _ _ _ _
      (nfa.subset_cloSet s (mem_ascList.1 hstl)) hbsub hb
  exact ⟨Finset.Subset.antisymm hTclo (nfa.cloSet_subset hsT hclosed), hrange⟩

/-- Completeness of `FollowEpsilons`: when the closure stays in range the
DFS succeeds (and then computes the closure, by soundness). -/
theorem NFA.followEpsilons_isSome (nfa : NFA) {s : Finset Nat}
    (h : ∀ q ∈ nfa.cloSet s, q < nfa.states.length) :
    nfa.followEpsilons s = some (nfa.cloSet s) := by
  have hsome : ∃ T, nfa.followEpsilons s = some T := by
    unfold NFA.followEpsilons NFA.followEpsilonsF
    have := foldlmIsSome (fun vis => vis ⊆ nfa.cloSet s)
      (fun vis st => nfa.epsVisit (nfa.states.length + 1) st vis)
      (ascList s) ?_ ∅ (by simp)
    · rcases this with ⟨T, hT, _⟩
      exact ⟨T, hT⟩
    · intro b st hstl hbsub
      have hstclo : st ∈ nfa.cloSet s := nfa.subset_cloSet s (mem_ascList.1 hstl)
      have hins : insert st b ⊆ nfa.cloSet s := Finset.insert_subset hstclo hbsub
      have hclo2 : ∀ q ∈ nfa.cloSet (insert st b), q < nfa.states.length := by
        intro q hq
        exact h q (((nfa.cloSet_mono hins).trans (le_of_eq (nfa.cloSet_idem _))) hq)
      rcases nfa.epsVisit_isSome (nfa.states.length + 1) st b hclo2 (by omega) with ⟨b', hb'⟩
      exact ⟨b', hb', nfa.epsVisit_subset (nfa.epsClosed_cloSet s) _ _ _ _ hstclo hbsub hb'⟩
  rcases hsome with ⟨T, hT⟩
  rw [hT, (nfa.followEpsilons_sound hT).1]

/-- Byte successors of a state: the targets of its edges labelled with the
byte `c`. -/
def NFA.byteSuccs (nfa : NFA) (q : Nat) (c : Nat) : Finset Nat :=
  ((nfa.states.getD q []).filterMap
    (fun e => if e.1 = some c then some e.2 else none)).toFinset

/-- One-byte target set of a state set (the specification's
`{ t | ∃ q ∈ current with edge q →b t }`). -/
def NFA.targetsOf (nfa : NFA) (cur : Finset Nat) (c : Nat) : Finset Nat :=
  cur.biUnion (fun q => nfa.byteSuccs q c)

/-- The inner double loop of `NFA::testMatch` collecting `nextStates` for
one input byte (the aborting `m_states.at(state)` is the `none` case). -/
def NFA.stepTargets (nfa : NFA) (cur : Finset Nat) (c : Nat) :
    Option (Finset Nat) :=
  (ascList cur).foldlM (fun acc q =>
    match nfa.states[q]? with
    | none => none
    | some edges =>
        some (edges.foldl (fun a e => if e.1 = some c then insert e.2 a else a) acc)) ∅

/-- The byte loop plus final accept scan of `NFA::testMatch`. -/
def NFA.testMatchGo (nfa : NFA) : List Nat → Finset Nat → Option Bool
  | [], cur => some (decide (∃ q ∈ cur, q ∈ nfa.accept))
  | c :: cs, cur =>
      match nfa.stepTargets cur c with
      | none => none
      | some next =>
          match nfa.followEpsilons next with
          | none => none
          | some next' => nfa.testMatchGo cs next'

/-- `NFA::testMatch`: the three entry assertions, the initial closure of
the start state, then the byte loop. -/
def NFA.testMatch (nfa : NFA) (w : List Nat) : Option Bool :=
  if nfa.states.isEmpty then none
  else
    match nfa.start with
    | none => none
    | some st =>
        if nfa.accept = ∅ then none
        else
          match nfa.followEpsilons {st} with
          | none => none
          | some cur => nfa.testMatchGo w cur

/-- Reference NFA simulation, written from the specification's words
(§4.1): start from the epsilon closure of the start state, for each byte
take the closure of the labelled targets, and accept iff the final set
meets the accept set. -/
def NFA.simulateSpec (nfa : NFA) (w : List Nat) : Bool :=
  match nfa.start with
  | none => false
  | some st =>
      decide (∃ q ∈ w.foldl (fun cur c => nfa.cloSet (nfa.targetsOf cur c))
        (nfa.cloSet {st}), q ∈ nfa.accept)

/-- Well-formedness required before matching: nonempty state list, a start
that names an existing state, a nonempty accept set, and every edge target
in range. -/
def NFA.WF (nfa : NFA) : Prop :=
  nfa.states ≠ [] ∧
  (∃ s, nfa.start = some s ∧ s < nfa.states.length) ∧
  nfa.accept.Nonempty ∧
  ∀ l ∈ nfa.states, ∀ e : NEdge, e ∈ l → e.2 < nfa.states.length

theorem NFA.epsSuccs_range (nfa : NFA)
    (hT : ∀ l ∈ nfa.states, ∀ e : NEdge, e ∈ l → e.2 < nfa.states.length)
    (q : Nat) : ∀ t ∈ nfa.epsSuccs q, t < nfa.states.length := by
  intro t ht
  simp only [NFA.epsSuccs, List.mem_toFinset, List.mem_filterMap] at ht
  rcases ht with ⟨e, he, hfe⟩
  have he2 : e.2 = t := by
    by_cases heps : e.1 = none
    · rw [if_pos heps] at hfe; simpa using hfe
    · rw [if_neg heps] at hfe; simp at hfe
  by_cases hq : q < nfa.states.length
  · have : nfa.states.getD q [] = nfa.states[q] := by
      simp [List.getD_eq_getElem?_getD, List.getElem?_eq_getElem hq]
    rw [this] at he
    exact he2 ▸ hT _ (List.getElem_mem hq) e he
  · rw [List.getD_eq_default _ _ (Nat.le_of_not_lt hq)] at he
    simp at he

theorem NFA.byteSuccs_range (nfa : NFA)
    (hT : ∀ l ∈ nfa.states, ∀ e : NEdge, e ∈ l → e.2 < nfa.states.length)
    (q : Nat) (c : Nat) : ∀ t ∈ nfa.byteSuccs q c, t < nfa.states.length := by
  intro t ht
  simp only [NFA.byteSuccs, List.mem_toFinset, List.mem_filterMap] at ht
  rcases ht with ⟨e, he, hfe⟩
  have he2 : e.2 = t := by
    by_cases hc : e.1 = some c
    · rw [if_pos hc] at hfe; simpa using hfe
    · rw [if_neg hc] at hfe; simp at hfe
  by_cases hq : q < nfa.states.length
  · have : nfa.states.getD q [] = nfa.states[q] := by
      simp [List.getD_eq_getElem?_getD, List.getElem?_eq_getElem hq]
    rw [this] at he
    exact he2 ▸ hT _ (List.getElem_mem hq) e he
  · rw [List.getD_eq_default _ _ (Nat.le_of_not_lt hq)] at he
    simp at he

theorem NFA.targetsOf_range (nfa : NFA)
    (hT : ∀ l ∈ nfa.states, ∀ e : NEdge, e ∈ l → e.2 < nfa.states.length)
    (cur : Finset Nat) (c : Nat) :
    ∀ t ∈ nfa.targetsOf cur c, t < nfa.states.length := by
  intro t ht
  rcases Finset.mem_biUnion.1 ht with ⟨q, _, hq⟩
  exact nfa.byteSuccs_range hT q c t hq

theorem NFA.cloSet_range (nfa : NFA)
    (hT : ∀ l ∈ nfa.states, ∀ e : NEdge, e ∈ l → e.2 < nfa.states.length)
    {s : Finset Nat} (hs : ∀ q ∈ s, q < nfa.states.length) :
    ∀ q ∈ nfa.cloSet s, q < nfa.states.length := by
  intro q hq
  have hsub : nfa.cloSet s ⊆ Finset.range nfa.states.length := by
    apply nfa.cloSet_subset
    · intro x hx; exact Finset.mem_range.2 (hs x hx)
    · intro x _ t ht
      exact Finset.mem_range.2 (nfa.epsSuccs_range hT x t ht)
  exact Finset.mem_range.1 (hsub hq)

theorem insertFoldByte (c : Nat) :
    ∀ (edges : List NEdge) (acc : Finset Nat),
      edges.foldl (fun a e => if e.1 = some c then insert e.2 a else a) acc
      = acc ∪ (edges.filterMap (fun e => if e.1 = some c then some e.2 else none)).toFinset := by
  intro edges
  induction edges with
  | nil => intro acc; simp
  | cons e es ih =>
      intro acc
      rw [List.foldl_cons]
      by_cases hc : e.1 = some c
      · rw [if_pos hc, ih]
        ext x
        simp only [List.filterMap_cons, if_pos hc]
        simp only [List.toFinset_cons, Finset.mem_union, Finset.mem_insert,
          List.mem_toFinset]
        tauto
      · rw [if_neg hc, ih]
        ext x
        simp only [List.filterMap_cons, if_neg hc]

/-- The `nextStates` double loop computes exactly `targetsOf` when every
member of the current set is in range. -/
theorem NFA.stepTargets_eq (nfa : NFA) {cur : Finset Nat}
    (hcur : ∀ q ∈ cur, q < nfa.states.length) (c : Nat) :
    nfa.stepTargets cur c = some (nfa.targetsOf cur c) := by
  unfold NFA.stepTargets
  have hgen : ∀ (l : List Nat), (∀ q ∈ l, q < nfa.states.length) →
      ∀ (acc : Finset Nat),
      l.foldlM (fun acc q =>
        match nfa.states[q]? with
        | none => none
        | some edges =>
            some (edges.foldl (fun a e => if e.1 = some c then insert e.2 a else a) acc)) acc
      = some (acc ∪ l.foldr (fun q t => nfa.byteSuccs q c ∪ t) ∅) := by
    intro l
    induction l with
    | nil => intro _ acc; simp [List.foldlM_nil, pure]
    | cons q l ih =>
        intro hl acc
        have hq : q < nfa.states.length := hl q (List.mem_cons_self _ _)
        have hget : nfa.states[q]? = some nfa.states[q] := List.getElem?_eq_getElem hq
        rw [List.foldlM_cons, hget]
        simp only [Option.bind_eq_bind, Option.some_bind]
        rw [ih (fun x hx => hl x (List.mem_cons_of_mem _ hx))]
        congr 1
        rw [insertFoldByte]
        have hbs : nfa.byteSuccs q c
            = (nfa.states[q].filterMap (fun e => if e.1 = some c then some e.2 else none)).toFinset := by
          simp [NFA.byteSuccs, List.getD_eq_getElem?_getD, hget]
        rw [List.foldr_cons, ← hbs]
        ext x
        simp only [Finset.mem_union]
        tauto
  rw [hgen (ascList cur) (fun q hq => hcur q (mem_ascList.1 hq)) ∅]
  congr 1
  ext x
  simp only [Finset.empty_union, NFA.targetsOf, Finset.mem_biUnion]
  constructor
  · intro hx
    have : ∀ (l : List Nat), x ∈ l.foldr (fun q t => nfa.byteSuccs q c ∪ t) ∅ →
        ∃ q ∈ l, x ∈ nfa.byteSuccs q c := by
      intro l
      induction l with
      | nil => simp
      | cons q l ihl =>
          intro hx
          rcases Finset.mem_union.1 hx with hx | hx
          · exact ⟨q, List.mem_cons_self _ _, hx⟩
          · rcases ihl hx with ⟨q', hq', hx'⟩
            exact ⟨q', List.mem_cons_of_mem _ hq', hx'⟩
    rcases this _ hx with ⟨q, hq, hx⟩
    exact ⟨q, mem_ascList.1 hq, hx⟩
  · intro ⟨q, hq, hx⟩
    have : ∀ (l : List Nat), q ∈ l → x ∈ l.foldr (fun q t => nfa.byteSuccs q c ∪ t) ∅ := by
      intro l
      induction l with
      | nil => simp
      | cons q' l ihl =>
          intro hq
          rcases List.mem_cons.1 hq with rfl | hq
          · exact Finset.mem_union_left _ hx
          · exact Finset.mem_union_right _ (ihl hq)
    exact this _ (mem_ascList.2 hq)

theorem NFA.testMatchGo_eq (nfa : NFA)
    (hT : ∀ l ∈ nfa.states, ∀ e : NEdge, e ∈ l → e.2 < nfa.states.length) :
    ∀ (w : List Nat) (cur : Finset Nat), (∀ q ∈ cur, q < nfa.states.length) →
      nfa.testMatchGo w cur
      = some (decide (∃ q ∈ w.foldl (fun cur c => nfa.cloSet (nfa.targetsOf cur c)) cur,
          q ∈ nfa.accept)) := by
  intro w
  induction w with
  | nil => intro cur _; simp [NFA.testMatchGo]
  | cons c cs ih =>
      intro cur hcur
      have htr : ∀ t ∈ nfa.targetsOf cur c, t < nfa.states.length :=
        nfa.targetsOf_range hT cur c
      have hclo : ∀ q ∈ nfa.cloSet (nfa.targetsOf cur c), q < nfa.states.length :=
        nfa.cloSet_range hT htr
      simp only [NFA.testMatchGo, nfa.stepTargets_eq hcur c,
        nfa.followEpsilons_isSome hclo, List.foldl_cons]
      exact ih _ hclo

/-- `NFA::testMatch` agrees with the specification's subset simulation on
every well-formed NFA. -/
theorem NFA.testMatch_eq_simulateSpec (nfa : NFA) (hwf : nfa.WF) (w : List Nat) :
    nfa.testMatch w = some (nfa.simulateSpec w) := by
  rcases hwf with ⟨hne, ⟨st, hstart, hstlt⟩, hacc, hT⟩
  have hclo : ∀ q ∈ nfa.cloSet {st}, q < nfa.states.length :=
    nfa.cloSet_range hT (by simpa using hstlt)
  unfold NFA.testMatch NFA.simulateSpec
  rw [hstart]
  simp only [List.isEmpty_iff, hne, if_false, Finset.eq_empty_iff_forall_not_mem]
  rw [if_neg (by rcases hacc with ⟨a, ha⟩; intro hall; exact hall a ha)]
  rw [nfa.followEpsilons_isSome hclo]
  exact nfa.testMatchGo_eq hT w _ hclo

/-- A DFA edge container (`std::map<char, int>`), modelled as an
association list whose keys are kept unique by `DFA.addEdge`.  The map's
sorted iteration order is recovered where it matters (code emission) by
sorting the keys. -/
abbrev DEdges := List (Nat × Nat)

/-- `std::map::find`. -/
def lookupEdge (edges : DEdges) (c : Nat) : Option Nat :=
  (edges.find? (fun e => e.1 == c)).map (·.2)

/-- The `DFA` struct (`m_states`, `m_start`, `m_match`). -/
structure DFA where
  states : List DEdges
  start : Option Nat
  accept : Finset Nat
deriving DecidableEq

def DFA.addState (dfa : DFA) : DFA × Nat :=
  ({ dfa with states := dfa.states ++ [[]] }, dfa.states.length)

def DFA.setStart (dfa : DFA) (s : Nat) : DFA :=
  { dfa with start := some s }

/-- `FABase::addMatch` on the DFA (duplicate insert aborts). -/
def DFA.addMatch (dfa : DFA) (m : Nat) : Option DFA :=
  if m ∈ dfa.accept then none else some { dfa with accept := insert m dfa.accept }

/-- `DFA::addEdge`: `assert(m_states.at(from).insert({cond, to}).second)` —
aborts when `from` is out of range or a `cond`-labelled edge already exists
at `from`; the target `to` is not checked. -/
def DFA.addEdge (dfa : DFA) (from_ : Nat) (cond : Nat) (to_ : Nat) : Option DFA :=
  if h : from_ < dfa.states.length then
    match lookupEdge dfa.states[from_] cond with
    | some _ => none
    | none => some { dfa with states := dfa.states.set from_ (dfa.states[from_] ++ [(cond, to_)]) }
  else none

/-- The byte loop of `DFA::testMatch` plus the final accept test. -/
def DFA.runFrom (dfa : DFA) : Nat → List Nat → Option Bool
  | s, [] => some (decide (s ∈ dfa.accept))
  | s, c :: cs =>
      match dfa.states[s]? with
      | none => none
      | some edges =>
          match lookupEdge edges c with
          | none => some false
          | some t => dfa.runFrom t cs

/-- `DFA::testMatch`: three entry assertions, then the table walk. -/
def DFA.testMatch (dfa : DFA) (w : List Nat) : Option Bool :=
  if dfa.states.isEmpty then none
  else
    match dfa.start with
    | none => none
    | some st => if dfa.accept = ∅ then none else dfa.runFrom st w

/-- Reference DFA walk, written from the specification's words (§4.4):
follow the unique edge per byte, return false on a missing edge, accept
iff the final state is accepting. -/
def DFA.runSpec (dfa : DFA) : Nat → List Nat → Bool
  | s, [] => decide (s ∈ dfa.accept)
  | s, c :: cs =>
      match lookupEdge (dfa.states.getD s []) c with
      | none => false
      | some t => dfa.runSpec t cs

/-- Reference DFA simulation from the specification (§4.4). -/
def DFA.simulateSpec (dfa : DFA) (w : List Nat) : Bool :=
  match dfa.start with
  | none => false
  | some s => dfa.runSpec s w

/-- Well-formedness required before matching a DFA. -/
def DFA.WF (dfa : DFA) : Prop :=
  dfa.states ≠ [] ∧
  (∃ s, dfa.start = some s ∧ s < dfa.states.length) ∧
  dfa.accept.Nonempty ∧
  ∀ l ∈ dfa.states, ∀ e : Nat × Nat, e ∈ l → e.2 < dfa.states.length

theorem lookupEdge_mem {edges : DEdges} {c : Nat} {t : Nat}
    (h : lookupEdge edges c = some t) : (c, t) ∈ edges := by
  unfold lookupEdge at h
  cases hf : edges.find? (fun e => e.1 == c) with
  | none => rw [hf] at h; simp at h
  | some e =>
      rw [hf] at h
      simp only [Option.map_some', Option.some.injEq] at h
      have he : e ∈ edges := List.mem_of_find?_eq_some hf
      have hc : e.1 = c := by
        have := List.find?_some hf
        simpa using this
      have : e = (c, t) := by
        rcases e with ⟨c', t'⟩
        simp only at hc h
        rw [hc, h]
      exact this ▸ he

theorem DFA.runFrom_eq_runSpec (dfa : DFA)
    (hT : ∀ l ∈ dfa.states, ∀ e : Nat × Nat, e ∈ l → e.2 < dfa.states.length) :
    ∀ (w : List Nat) (s : Nat), s < dfa.states.length →
      dfa.runFrom s w = some (dfa.runSpec s w) := by
  intro w
  induction w with
  | nil => intro s _; simp [DFA.runFrom, DFA.runSpec]
  | cons c cs ih =>
      intro s hs
      have hget : dfa.states[s]? = some dfa.states[s] := List.getElem?_eq_getElem hs
      have hgetD : dfa.states.getD s [] = dfa.states[s] := by
        simp [List.getD_eq_getElem?_getD, hget]
      simp only [DFA.runFrom, DFA.runSpec, hget, hgetD]
      cases hlk : lookupEdge dfa.states[s] c with
      | none => rfl
      | some t =>
          have ht : t < dfa.states.length :=
            hT _ (List.getElem_mem hs) _ (lookupEdge_mem hlk)
          exact ih t ht

/-- `DFA::testMatch` agrees with the specification's walk on every
well-formed DFA. -/
theorem DFA.testMatch_eq_simulateSpecD (dfa : DFA) (hwf : dfa.WF) (w : List Nat) :
    dfa.testMatch w = some (dfa.simulateSpec w) := by
  rcases hwf with ⟨hne, ⟨st, hstart, hstlt⟩, hacc, hT⟩
  unfold DFA.testMatch DFA.simulateSpec
  rw [hstart]
  simp only [List.isEmpty_iff, hne, if_false]
  rw [if_neg (by
    rw [Finset.eq_empty_iff_forall_not_mem]
    rcases hacc with ⟨a, ha⟩
    intro hall
    exact hall a ha)]
  exact dfa.runFrom_eq_runSpec hT w st hstlt

/-- Key set of `newEdges` in `NFA::lower`: every byte labelling an edge
out of a member of the closure set. -/
def NFA.labelsOf (nfa : NFA) (states : Finset Nat) : Finset Nat :=
  states.biUnion (fun q => ((nfa.states.getD q []).filterMap (fun e => e.1)).toFinset)

/-- Lookup in the subset-construction memoization cache.  The C++ cache is
`std::unordered_map<std::set<int>, int>`: keys are compared with the
set-equality `operator==` of `std::set` (modelled by `Finset` equality) and
hashed order-independently. -/
def cacheFind (cache : List (Finset Nat × Nat)) (k : Finset Nat) :
    Option Nat :=
  (cache.find? (fun e => e.1 == k)).map (·.2)

/-- The FNV-1a hash used by `NFA::lower`'s cache, over the (already
sorted) element sequence of the set, with `int` multiplication modelled
modulo `2^32`. -/
def ssetHash (s : Finset Nat) : Nat :=
  (ascList s).foldl (fun h n => ((h ^^^ n) * 16777619) % 2 ^ 32) (2166136261 % 2 ^ 32)

/-- The accept-marking part of the loop over a closure set in `NFA::lower`:
`if (m_match.count(state)) dfa.addMatch(newState);` for each member in
ascending order.  A second accepting member makes `addMatch` abort. -/
def lowerMarkAccept (nfa : NFA) (newState : Nat) : List Nat → DFA → Option DFA
  | [], dfa => some dfa
  | q :: qs, dfa =>
      if q ∈ nfa.accept then
        match dfa.addMatch newState with
        | none => none
        | some dfa' => lowerMarkAccept nfa newState qs dfa'
      else lowerMarkAccept nfa newState qs dfa

/-- The recursive lambda of `NFA::lower`.  `fuel` bounds the recursion
depth.  One call: close the argument set, look it up in the cache, and on a
miss allocate a DFA state, record it, mark it accepting once per accepting
member (the C++ interleaves this with edge collection in a single loop over
`states`; the edge collection itself cannot abort because every member of a
successful `FollowEpsilons` result is in range), assemble `newEdges`
(labels to target sets), and recurse per label in ascending order (the C++
iterates an `unordered_map` in an unspecified order; the order only affects
state numbering).  Returns the DFA state for the set plus the updated DFA
and cache. -/
def NFA.lowerRec (nfa : NFA) :
    Nat → Finset Nat → DFA → List (Finset Nat × Nat) →
    Option (Nat × DFA × List (Finset Nat × Nat))
  | 0, _, _, _ => none
  | fuel + 1, states0, dfa, cache =>
      match nfa.followEpsilons states0 with
      | none => none
      | some states =>
          match cacheFind cache states with
          | some s => some (s, dfa, cache)
          | none =>
              let p := dfa.addState
              let newState := p.2
              let cache1 := (states, newState) :: cache
              match lowerMarkAccept nfa newState (ascList states) p.1 with
              | none => none
              | some dfa2 =>
                  ((ascList (nfa.labelsOf states)).foldlM
                    (fun (st : DFA × List (Finset Nat × Nat)) c =>
                      match nfa.lowerRec fuel (nfa.targetsOf states c) st.1 st.2 with
                      | none => none
                      | some (t, dfa', cache') =>
                          match dfa'.addEdge newState c t with
                          | none => none
                          | some dfa'' => some (dfa'', cache')) (dfa2, cache1)).map
                    (fun r => (newState, r))

/-- `NFA::lower`: run the subset construction from `{m_start}` on an empty
DFA and empty cache, then set the DFA start to the returned state.  An
unset start (`-1`) aborts inside `FollowEpsilons` (`.at(-1)`).  The fuel
`2 ^ |states| + 1` dominates the recursion depth, which is bounded by the
number of distinct closure sets. -/
def NFA.lower (nfa : NFA) : Option DFA :=
  match nfa.start with
  | none => none
  | some s =>
      match nfa.lowerRec (2 ^ nfa.states.length + 1) {s} ⟨[], none, ∅⟩ [] with
      | none => none
      | some (s0, dfa, _) => some (dfa.setStart s0)

theorem cacheFind_some_mem {cache : List (Finset Nat × Nat)}
    {k : Finset Nat} {t : Nat} (h : cacheFind cache k = some t) :
    (k, t) ∈ cache := by
  unfold cacheFind at h
  cases hf : cache.find? (fun e => e.1 == k) with
  | none => rw [hf] at h; simp at h
  | some e =>
      rw [hf] at h
      simp only [Option.map_some', Option.some.injEq] at h
      have he : e ∈ cache := List.mem_of_find?_eq_some hf
      have hk : e.1 = k := by
        have := List.find?_some hf
        simpa using this
      have : e = (k, t) := by
        rcases e with ⟨k', t'⟩
        simp only at hk h
        rw [hk, h]
      exact this ▸ he

theorem cacheFind_none_iff {cache : List (Finset Nat × Nat)}
    {k : Finset Nat} : cacheFind cache k = none ↔ ∀ p ∈ cache, p.1 ≠ k := by
  unfold cacheFind
  rw [Option.map_eq_none', List.find?_eq_none]
  constructor
  · intro h p hp
    have := h p hp
    simpa using this
  · intro h p hp
    simpa using h p hp

theorem cacheFind_of_mem_distinct {cache : List (Finset Nat × Nat)}
    {k : Finset Nat} {t : Nat}
    (hdist : cache.Pairwise (fun p q => p.1 ≠ q.1)) (hmem : (k, t) ∈ cache) :
    cacheFind cache k = some t := by
  induction cache with
  | nil => simp at hmem
  | cons p rest ih =>
      rcases List.mem_cons.1 hmem with rfl | hmem'
      · unfold cacheFind
        rw [List.find?_cons_of_pos _ (by simp)]
        rfl
      · have hne : p.1 ≠ k := by
          have := (List.pairwise_cons.1 hdist).1 (k, t) hmem'
          simpa using this
        unfold cacheFind
        rw [List.find?_cons_of_neg _ (by simpa using hne)]
        exact ih (List.pairwise_cons.1 hdist).2 hmem'

theorem cacheFind_append_stable {pre cache : List (Finset Nat × Nat)}
    {k : Finset Nat} {t : Nat}
    (hdist : (pre ++ cache).Pairwise (fun p q => p.1 ≠ q.1))
    (h : cacheFind cache k = some t) : cacheFind (pre ++ cache) k = some t :=
  cacheFind_of_mem_distinct hdist (List.mem_append_right pre (cacheFind_some_mem h))

theorem lookupEdge_append_self {edges : DEdges} {c : Nat} {t : Nat}
    (h : lookupEdge edges c = none) : lookupEdge (edges ++ [(c, t)]) c = some t := by
  unfold lookupEdge at h ⊢
  rw [Option.map_eq_none'] at h
  rw [List.find?_append, h]
  simp [List.find?]

theorem lookupEdge_append_other {edges : DEdges} {c c' : Nat} {t : Nat}
    (h : c' ≠ c) : lookupEdge (edges ++ [(c, t)]) c' = lookupEdge edges c' := by
  unfold lookupEdge
  rw [List.find?_append]
  cases hf : edges.find? (fun e => e.1 == c') with
  | none =>
      simp only [Option.none_or]
      have : List.find? (fun e => e.1 == c') [(c, t)] = none := by
        have hbeq : (c == c') = false := beq_eq_false_iff_ne.mpr (Ne.symm h)
        simp [List.find?, hbeq]
      rw [this]
  | some e => simp

/-- `lowerMarkAccept` on a success: the states and start are untouched, and
the accept set gains `newState` exactly when the list holds an accepting
state. -/
theorem lowerMarkAccept_spec (nfa : NFA) (newState : Nat) :
    ∀ (qs : List Nat) (dfa out : DFA),
      lowerMarkAccept nfa newState qs dfa = some out →
      out.states = dfa.states ∧ out.start = dfa.start ∧
      (out.accept = if ∃ q ∈ qs, q ∈ nfa.accept then insert newState dfa.accept
        else dfa.accept) := by
  intro qs
  induction qs with
  | nil =>
      intro dfa out h
      simp only [lowerMarkAccept, Option.some.injEq] at h
      subst h
      simp
  | cons q qs ih =>
      intro dfa out h
      simp only [lowerMarkAccept] at h
      by_cases hq : q ∈ nfa.accept
      · rw [if_pos hq] at h
        cases hm : dfa.addMatch newState with
        | none => rw [hm] at h; simp at h
        | some dfa' =>
            rw [hm] at h
            unfold DFA.addMatch at hm
            by_cases hns : newState ∈ dfa.accept
            · rw [if_pos hns] at hm; simp at hm
            · rw [if_neg hns] at hm
              simp only [Option.some.injEq] at hm
              rcases ih dfa' out h with ⟨h1, h2, h3⟩
              subst hm
              refine ⟨h1, h2, ?_⟩
              rw [if_pos ⟨q, List.mem_cons_self _ _, hq⟩]
              rw [h3]
              by_cases hrest : ∃ x ∈ qs, x ∈ nfa.accept
              · rw [if_pos hrest]
                simp [Finset.Insert.comm, Finset.insert_idem]
              · rw [if_neg hrest]
      · rw [if_neg hq] at h
        rcases ih dfa out h with ⟨h1, h2, h3⟩
        refine ⟨h1, h2, ?_⟩
        rw [h3]
        by_cases hrest : ∃ x ∈ qs, x ∈ nfa.accept
        · rw [if_pos hrest, if_pos ?_]
          rcases hrest with ⟨x, hx, hxa⟩
          exact ⟨x, List.mem_cons_of_mem _ hx, hxa⟩
        · rw [if_neg hrest, if_neg ?_]
          intro ⟨x, hx, hxa⟩
          rcases List.mem_cons.1 hx with rfl | hx'
          · exact hq hxa
          · exact hrest ⟨x, hx', hxa⟩

/-- A closure set has a `b`-labelled outgoing edge iff its `b`-target set
is nonempty. -/
theorem NFA.mem_labelsOf_iff (nfa : NFA) (states : Finset Nat) (c : Nat) :
    c ∈ nfa.labelsOf states ↔ nfa.targetsOf states c ≠ ∅ := by
  unfold NFA.labelsOf NFA.targetsOf
  constructor
  · intro hc
    rcases Finset.mem_biUnion.1 hc with ⟨q, hq, hqc⟩
    simp only [List.mem_toFinset, List.mem_filterMap] at hqc
    rcases hqc with ⟨e, he, he1⟩
    intro hempty
    have : e.2 ∈ nfa.byteSuccs q c := by
      simp only [NFA.byteSuccs, List.mem_toFinset, List.mem_filterMap]
      exact ⟨e, he, by simp [he1]⟩
    have : e.2 ∈ states.biUnion (fun q => nfa.byteSuccs q c) :=
      Finset.mem_biUnion.2 ⟨q, hq, this⟩
    rw [hempty] at this
    simp at this
  · intro hne
    rcases Finset.nonempty_iff_ne_empty.2 hne with ⟨t, ht⟩
    rcases Finset.mem_biUnion.1 ht with ⟨q, hq, hqt⟩
    simp only [NFA.byteSuccs, List.mem_toFinset, List.mem_filterMap] at hqt
    rcases hqt with ⟨e, he, he1⟩
    have he1' : e.1 = some c := by
      by_cases h : e.1 = some c
      · exact h
      · rw [if_neg h] at he1; simp at he1
    refine Finset.mem_biUnion.2 ⟨q, hq, ?_⟩
    simp only [List.mem_toFinset, List.mem_filterMap]
    exact ⟨e, he, he1'⟩

/-- Structural invariant tying the subset-construction cache to the DFA
under construction: every cached value names an existing DFA state, keys
are pairwise distinct closure sets, a cached state is accepting exactly
when its closure set holds an accepting NFA state, and the accept set only
names existing states. -/
def CacheInv (nfa : NFA) (dfa : DFA) (cache : List (Finset Nat × Nat)) : Prop :=
  (∀ p ∈ cache, p.2 < dfa.states.length) ∧
  cache.Pairwise (fun p q => p.1 ≠ q.1) ∧
  (∀ p ∈ cache, (p.2 ∈ dfa.accept ↔ ∃ q ∈ p.1, q ∈ nfa.accept)) ∧
  (∀ q ∈ dfa.accept, q < dfa.states.length)

/-- A cache entry whose outgoing DFA edges are fully built: per byte,
either no targets and no edge, or an edge to the cached state of the
target closure. -/
def EntryDone (nfa : NFA) (dfa : DFA) (cache : List (Finset Nat × Nat))
    (p : Finset Nat × Nat) : Prop :=
  ∀ c : Nat,
    (nfa.targetsOf p.1 c = ∅ → lookupEdge (dfa.states.getD p.2 []) c = none) ∧
    (nfa.targetsOf p.1 c ≠ ∅ →
      ∃ t, cacheFind cache (nfa.cloSet (nfa.targetsOf p.1 c)) = some t ∧
        lookupEdge (dfa.states.getD p.2 []) c = some t)

theorem EntryDone_preserved {nfa : NFA} {dfa dfa' : DFA}
    {cache cache' : List (Finset Nat × Nat)}
    {p : Finset Nat × Nat}
    (hdone : EntryDone nfa dfa cache p)
    (hframe : dfa'.states.getD p.2 [] = dfa.states.getD p.2 [])
    (hgrow : ∃ pre, cache' = pre ++ cache)
    (hdist : cache'.Pairwise (fun p q => p.1 ≠ q.1)) :
    EntryDone nfa dfa' cache' p := by
  intro c
  rcases hdone c with ⟨h1, h2⟩
  rw [hframe]
  refine ⟨h1, ?_⟩
  intro hne
  rcases h2 hne with ⟨t, hfind, hlook⟩
  rcases hgrow with ⟨pre, rfl⟩
  exact ⟨t, cacheFind_append_stable hdist hfind, hlook⟩

/-- Postcondition of one `NFA::lower` recursion: the invariant is kept, the
DFA only grows (existing states and their accept status untouched), the
cache only grows, every fresh cache entry names a fresh completed DFA
state, and the returned state is the cached state of the closure of the
argument set. -/
def LowerPost (nfa : NFA) (S : Finset Nat) (dfa : DFA)
    (cache : List (Finset Nat × Nat)) (s' : Nat) (dfa' : DFA)
    (cache' : List (Finset Nat × Nat)) : Prop :=
  CacheInv nfa dfa' cache' ∧
  dfa.states.length ≤ dfa'.states.length ∧
  (∀ i, i < dfa.states.length → dfa'.states.getD i [] = dfa.states.getD i []) ∧
  (∃ pre, cache' = pre ++ cache) ∧
  (∀ q, q < dfa.states.length → (q ∈ dfa'.accept ↔ q ∈ dfa.accept)) ∧
  (∀ p ∈ cache', p ∉ cache → dfa.states.length ≤ p.2 ∧ EntryDone nfa dfa' cache' p) ∧
  nfa.followEpsilons S = some (nfa.cloSet S) ∧
  (nfa.cloSet S, s') ∈ cache' ∧
  cacheFind cache' (nfa.cloSet S) = some s'

/-- Specification of the per-label loop in `NFA::lower` (recurse on the
target closure, then add the DFA edge), assuming the recursion itself
satisfies `LowerPost`. -/
theorem lowerFold_spec (nfa : NFA) (fuel : Nat) (C : Finset Nat) (newState : Nat)
    (IH : ∀ (S : Finset Nat) (dfa : DFA) (cache : List (Finset Nat × Nat))
      (s' : Nat) (dfa' : DFA) (cache' : List (Finset Nat × Nat)),
      nfa.lowerRec fuel S dfa cache = some (s', dfa', cache') →
      CacheInv nfa dfa cache → LowerPost nfa S dfa cache s' dfa' cache') :
    ∀ (bs : List Nat), bs.Nodup →
      ∀ (d : DFA) (κ : List (Finset Nat × Nat))
        (out : DFA × List (Finset Nat × Nat)),
      bs.foldlM (fun st c =>
        match nfa.lowerRec fuel (nfa.targetsOf C c) st.1 st.2 with
        | none => none
        | some (t, dfa', cache') =>
            match dfa'.addEdge newState c t with
            | none => none
            | some dfa'' => some (dfa'', cache')) (d, κ) = some out →
      CacheInv nfa d κ →
      newState < d.states.length →
      (∀ c ∈ bs, lookupEdge (d.states.getD newState []) c = none) →
      CacheInv nfa out.1 out.2 ∧
      d.states.length ≤ out.1.states.length ∧
      (∀ i, i < d.states.length → i ≠ newState →
        out.1.states.getD i [] = d.states.getD i []) ∧
      (∃ pre, out.2 = pre ++ κ) ∧
      (∀ q, q < d.states.length → (q ∈ out.1.accept ↔ q ∈ d.accept)) ∧
      (∀ p ∈ out.2, p ∉ κ → d.states.length ≤ p.2 ∧ EntryDone nfa out.1 out.2 p) ∧
      (∀ c, c ∉ bs → lookupEdge (out.1.states.getD newState []) c
        = lookupEdge (d.states.getD newState []) c) ∧
      (∀ c ∈ bs, ∃ t, cacheFind out.2 (nfa.cloSet (nfa.targetsOf C c)) = some t ∧
        lookupEdge (out.1.states.getD newState []) c = some t) := by
  intro bs
  induction bs with
  | nil =>
      intro _ d κ out h hinv hns _
      simp only [List.foldlM_nil, pure, Option.some.injEq] at h
      subst h
      refine ⟨hinv, le_refl _, fun i _ _ => rfl, ⟨[], rfl⟩, fun q _ => Iff.rfl,
        ?_, fun c _ => rfl, by simp⟩
      intro p hp hnp
      exact absurd hp hnp
  | cons c bs ihbs =>
      intro hnodup d κ out h hinv hns hnone
      have hcbs : c ∉ bs := (List.nodup_cons.1 hnodup).1
      have hbsnd : bs.Nodup := (List.nodup_cons.1 hnodup).2
      rw [List.foldlM_cons] at h
      cases hrec : nfa.lowerRec fuel (nfa.targetsOf C c) d κ with
      | none => simp only [hrec] at h; simp at h
      | some res =>
          rcases res with ⟨t, d₁, κ₁⟩
          obtain ⟨hinv₁, hlen₁, hframe₁, hgrow₁, hacc₁, hnew₁, hfe₁, hmem₁, hfind₁⟩ :=
            IH _ _ _ _ _ _ hrec hinv
          cases hadd : d₁.addEdge newState c t with
          | none => simp only [hrec, hadd] at h; simp at h
          | some d₂ =>
              simp only [hrec, hadd, Option.bind_eq_bind, Option.some_bind] at h
              -- facts from a successful addEdge
              have hns₁ : newState < d₁.states.length := by
                by_contra hge
                unfold DFA.addEdge at hadd
                rw [dif_neg hge] at hadd
                exact absurd hadd (by simp)
              have hlknone : lookupEdge d₁.states[newState] c = none := by
                unfold DFA.addEdge at hadd
                rw [dif_pos hns₁] at hadd
                cases hlk : lookupEdge d₁.states[newState] c with
                | none => rfl
                | some u => rw [hlk] at hadd; simp at hadd
              have hd₂ : d₂ =
                  { d₁ with states := d₁.states.set newState (d₁.states[newState] ++ [(c, t)]) } := by
                unfold DFA.addEdge at hadd
                rw [dif_pos hns₁, hlknone] at hadd
                simpa using hadd.symm
              have hd₂len : d₂.states.length = d₁.states.length := by rw [hd₂]; simp
              have hd₂acc : d₂.accept = d₁.accept := by rw [hd₂]
              have hd₁ns : d₁.states.getD newState [] = d₁.states[newState] := by
                simp [List.getD_eq_getElem?_getD, List.getElem?_eq_getElem hns₁]
              have hd₂self : d₂.states.getD newState [] =
                  d₁.states.getD newState [] ++ [(c, t)] := by
                rw [hd₂, hd₁ns]
                simp [List.getD_eq_getElem?_getD, List.getElem?_set_self',
                  List.length_set, hns₁]
              have hd₂other : ∀ i, i ≠ newState →
                  d₂.states.getD i [] = d₁.states.getD i [] := by
                intro i hi
                rw [hd₂]
                simp [List.getD_eq_getElem?_getD, List.getElem?_set_ne (Ne.symm hi)]
              have hd₁nsd : d₁.states.getD newState [] = d.states.getD newState [] :=
                hframe₁ newState hns
              -- the invariant for the tail call
              have hinv₂ : CacheInv nfa d₂ κ₁ := by
                obtain ⟨p1, p2, p3, p4⟩ := hinv₁
                exact ⟨fun p hp => hd₂len ▸ p1 p hp, p2,
                  fun p hp => hd₂acc ▸ p3 p hp, fun q hq => hd₂len ▸ p4 q (hd₂acc ▸ hq)⟩
              have hnone₂ : ∀ c' ∈ bs, lookupEdge (d₂.states.getD newState []) c' = none := by
                intro c' hc'
                rw [hd₂self, hd₁nsd]
                rw [lookupEdge_append_other (fun hcc => hcbs (by rw [← hcc]; exact hc'))]
                exact hnone c' (List.mem_cons_of_mem _ hc')
              obtain ⟨jinv, jlen, jframe, jgrow, jacc, jnew, jkeep, jdone⟩ :=
                ihbs hbsnd d₂ κ₁ out h hinv₂ (hd₂len ▸ hns₁) hnone₂
              have hdd₂ : d.states.length ≤ d₂.states.length := hd₂len ▸ hlen₁
              refine ⟨jinv, hdd₂.trans jlen, ?_, ?_, ?_, ?_, ?_, ?_⟩
              · -- frame
                intro i hi hine
                rw [jframe i (lt_of_lt_of_le hi hdd₂) hine, hd₂other i hine,
                  hframe₁ i hi]
              · -- cache growth
                rcases jgrow with ⟨pre₂, hpre₂⟩
                rcases hgrow₁ with ⟨pre₁, hpre₁⟩
                exact ⟨pre₂ ++ pre₁, by rw [hpre₂, hpre₁, List.append_assoc]⟩
              · -- accept preserved
                intro q hq
                rw [jacc q (lt_of_lt_of_le hq hdd₂), hd₂acc, hacc₁ q hq]
              · -- new entries complete
                intro p hp hnp
                by_cases hpκ₁ : p ∈ κ₁
                · rcases hnew₁ p hpκ₁ hnp with ⟨hple, hdone₁⟩
                  have hpns : p.2 ≠ newState := fun heq =>
                    absurd (lt_of_le_of_lt (heq ▸ hple) hns) (Nat.lt_irrefl _)
                  have hdone₂ : EntryDone nfa d₂ κ₁ p :=
                    EntryDone_preserved hdone₁ (hd₂other p.2 hpns) ⟨[], rfl⟩ hinv₁.2.1
                  refine ⟨hple, EntryDone_preserved hdone₂ ?_ jgrow jinv.2.1⟩
                  have hplt : p.2 < d₂.states.length := hd₂len ▸ hinv₁.1 p hpκ₁
                  exact jframe p.2 hplt hpns
                · rcases jnew p hp hpκ₁ with ⟨hple, hdonej⟩
                  exact ⟨hdd₂.trans hple, hdonej⟩
              · -- untouched labels
                intro c' hc'
                have hc'bs : c' ∉ bs := fun hx => hc' (List.mem_cons_of_mem _ hx)
                have hc'c : c' ≠ c := fun hx => hc' (hx ▸ List.mem_cons_self _ _)
                rw [jkeep c' hc'bs, hd₂self, hd₁nsd, lookupEdge_append_other hc'c]
              · -- processed labels
                intro c' hc'
                rcases List.mem_cons.1 hc' with rfl | hc'bs
                · refine ⟨t, ?_, ?_⟩
                  · rcases jgrow with ⟨pre₂, hpre₂⟩
                    rw [hpre₂]
                    exact cacheFind_append_stable (hpre₂ ▸ jinv.2.1) hfind₁
                  · rw [jkeep c' hcbs, hd₂self]
                    exact lookupEdge_append_self (hd₁ns ▸ hlknone)
                · exact jdone c' hc'bs

/-- The main specification of `NFA::lower`'s recursion. -/
theorem NFA.lowerRec_spec (nfa : NFA) :
    ∀ (fuel : Nat) (S : Finset Nat) (dfa : DFA)
      (cache : List (Finset Nat × Nat)) (s' : Nat) (dfa' : DFA)
      (cache' : List (Finset Nat × Nat)),
      nfa.lowerRec fuel S dfa cache = some (s', dfa', cache') →
      CacheInv nfa dfa cache → LowerPost nfa S dfa cache s' dfa' cache' := by
  intro fuel
  induction fuel with
  | zero => intro S dfa cache s' dfa' cache' h _; simp [NFA.lowerRec] at h
  | succ fuel ih =>
      intro S dfa cache s' dfa' cache' h hinv
      simp only [NFA.lowerRec] at h
      cases hfe : nfa.followEpsilons S with
      | none => rw [hfe] at h; simp at h
      | some C =>
          have hCclo : C = nfa.cloSet S := (nfa.followEpsilons_sound hfe).1
          rw [hfe] at h
          simp only [] at h
          cases hcf : cacheFind cache C with
          | some s =>
              rw [hcf] at h
              simp only [Option.some.injEq, Prod.mk.injEq] at h
              obtain ⟨rfl, rfl, rfl⟩ := h
              refine ⟨hinv, le_refl _, fun i _ => rfl, ⟨[], rfl⟩, fun q _ => Iff.rfl,
                fun p hp hnp => absurd hp hnp, ?_, ?_, ?_⟩
              · rw [← hCclo]; exact hfe
              · rw [← hCclo]; exact cacheFind_some_mem hcf
              · rw [← hCclo]; exact hcf
          | none =>
              rw [hcf] at h
              simp only [DFA.addState] at h
              cases hmark : lowerMarkAccept nfa dfa.states.length (ascList C)
                  { dfa with states := dfa.states ++ [[]] } with
              | none => rw [hmark] at h; simp at h
              | some dfa2 =>
                  rw [hmark] at h
                  simp only [] at h
                  rcases Option.map_eq_some'.1 h with ⟨r, hfold, hr⟩
                  rcases r with ⟨dfa3, cache3⟩
                  simp only [Prod.mk.injEq] at hr
                  obtain ⟨rfl, rfl, rfl⟩ := hr
                  obtain ⟨hst2, hstart2, hacc2⟩ := lowerMarkAccept_spec nfa _ _ _ _ hmark
                  simp only at hst2 hacc2
                  have hlen2 : dfa2.states.length = dfa.states.length + 1 := by
                    rw [hst2]; simp
                  have hacc2' : dfa2.accept
                      = if ∃ q ∈ C, q ∈ nfa.accept then insert dfa.states.length dfa.accept
                        else dfa.accept := by
                    rw [hacc2]
                    by_cases hex : ∃ q ∈ C, q ∈ nfa.accept
                    · rw [if_pos hex]
                      rcases hex with ⟨q, hq, hqa⟩
                      rw [if_pos ⟨q, mem_ascList.2 hq, hqa⟩]
                    · rw [if_neg hex]
                      rw [if_neg (fun ⟨q, hq, hqa⟩ => hex ⟨q, mem_ascList.1 hq, hqa⟩)]
                  have hNSacc : dfa.states.length ∉ dfa.accept :=
                    fun hmem => Nat.lt_irrefl _ (hinv.2.2.2 _ hmem)
                  have hinv2 : CacheInv nfa dfa2 ((C, dfa.states.length) :: cache) := by
                    obtain ⟨p1, p2, p3, p4⟩ := hinv
                    refine ⟨?_, ?_, ?_, ?_⟩
                    · intro p hp
                      rcases List.mem_cons.1 hp with rfl | hp'
                      · simp [hlen2]
                      · have := p1 p hp'
                        omega
                    · refine List.pairwise_cons.2 ⟨?_, p2⟩
                      intro p hp
                      have := cacheFind_none_iff.1 hcf p hp
                      exact fun hh => this (hh ▸ rfl)
                    · intro p hp
                      rcases List.mem_cons.1 hp with rfl | hp'
                      · simp only []
                        rw [hacc2']
                        by_cases hex : ∃ q ∈ C, q ∈ nfa.accept
                        · rw [if_pos hex]
                          exact iff_of_true (Finset.mem_insert_self _ _) hex
                        · rw [if_neg hex]
                          exact ⟨fun hmem => absurd hmem hNSacc, fun hex' => absurd hex' hex⟩
                      · have hlt := p1 p hp'
                        have hne : p.2 ≠ dfa.states.length := by omega
                        rw [hacc2']
                        by_cases hex : ∃ q ∈ C, q ∈ nfa.accept
                        · rw [if_pos hex]
                          simp only [Finset.mem_insert]
                          rw [← p3 p hp']
                          exact ⟨fun hor => hor.resolve_left hne, fun hmem => Or.inr hmem⟩
                        · rw [if_neg hex]
                          exact p3 p hp'
                    · intro q hq
                      rw [hacc2'] at hq
                      by_cases hex : ∃ x ∈ C, x ∈ nfa.accept
                      · rw [if_pos hex] at hq
                        rcases Finset.mem_insert.1 hq with rfl | hq'
                        · omega
                        · have := p4 q hq'
                          omega
                      · rw [if_neg hex] at hq
                        have := p4 q hq
                        omega
                  have hnsd2 : dfa2.states.getD dfa.states.length [] = [] := by
                    rw [hst2]
                    simp [List.getD_eq_getElem?_getD, List.getElem?_concat_length]
                  obtain ⟨jinv, jlen, jframe, jgrow, jacc, jnew, jkeep, jdone⟩ :=
                    lowerFold_spec nfa fuel C dfa.states.length ih
                      (ascList (nfa.labelsOf C)) (nodup_ascList _)
                      dfa2 ((C, dfa.states.length) :: cache) (dfa3, cache3) hfold hinv2
                      (by omega) (by intro c _; rw [hnsd2]; rfl)
                  simp only [] at jinv jlen jframe jgrow jacc jnew jkeep jdone
                  have hddlen : dfa.states.length ≤ dfa2.states.length := by omega
                  have hframe2 : ∀ i, i < dfa.states.length →
                      dfa2.states.getD i [] = dfa.states.getD i [] := by
                    intro i hi
                    rw [hst2]
                    simp [List.getD_eq_getElem?_getD, List.getElem?_append_left hi]
                  have hentry : ((C, dfa.states.length) : Finset Nat × Nat)
                      ∈ cache3 := by
                    rcases jgrow with ⟨pre, hpre⟩
                    rw [hpre]
                    exact List.mem_append_right _ (List.mem_cons_self _ _)
                  refine ⟨jinv, le_trans hddlen jlen, ?_, ?_, ?_, ?_, ?_, ?_, ?_⟩
                  · -- frame over the original dfa
                    intro i hi
                    have hine : i ≠ dfa.states.length := by omega
                    rw [jframe i (by omega) hine, hframe2 i hi]
                  · -- cache growth
                    rcases jgrow with ⟨pre, hpre⟩
                    exact ⟨pre ++ [(C, dfa.states.length)], by
                      rw [hpre, List.append_assoc]; rfl⟩
                  · -- accept preserved on old states
                    intro q hq
                    have hne : q ≠ dfa.states.length := by omega
                    rw [jacc q (by omega), hacc2']
                    by_cases hex : ∃ x ∈ C, x ∈ nfa.accept
                    · rw [if_pos hex]
                      simp only [Finset.mem_insert]
                      exact ⟨fun hor => hor.resolve_left hne, fun hmem => Or.inr hmem⟩
                    · rw [if_neg hex]
                  · -- fresh cache entries are complete
                    intro p hp hnp
                    by_cases hp1 : p ∈ ((C, dfa.states.length) :: cache)
                    · rcases List.mem_cons.1 hp1 with rfl | hp'
                      · refine ⟨le_refl _, ?_⟩
                        intro c
                        constructor
                        · intro hempty
                          have hcl : c ∉ ascList (nfa.labelsOf C) := by
                            rw [mem_ascList]
                            rw [nfa.mem_labelsOf_iff]
                            simp only [ne_eq, not_not]
                            exact hempty
                          have := jkeep c hcl
                          simp only at this
                          rw [this, hnsd2]
                          rfl
                        · intro hne
                          have hcl : c ∈ ascList (nfa.labelsOf C) := by
                            rw [mem_ascList, nfa.mem_labelsOf_iff]
                            exact hne
                          exact jdone c hcl
                      · exact absurd hp' hnp
                    · rcases jnew p hp hp1 with ⟨hple, hdone⟩
                      exact ⟨le_trans hddlen hple, hdone⟩
                  · rw [← hCclo]; exact hfe
                  · rw [← hCclo]; exact hentry
                  · rw [← hCclo]
                    exact cacheFind_of_mem_distinct jinv.2.1 hentry

theorem cacheFind_nil {k : Finset Nat} : cacheFind [] k = none := rfl

/-- With an empty starting cache the recursion returns the first state it
allocates, namely the next index of the starting DFA. -/
theorem NFA.lowerRec_nil_ret (nfa : NFA) (fuel : Nat) (S : Finset Nat) (d0 : DFA)
    (res : Nat × DFA × List (Finset Nat × Nat))
    (h : nfa.lowerRec fuel S d0 [] = some res) : res.1 = d0.states.length := by
  match fuel with
  | 0 => simp [NFA.lowerRec] at h
  | fuel + 1 =>
      simp only [NFA.lowerRec] at h
      cases hfe : nfa.followEpsilons S with
      | none => rw [hfe] at h; simp at h
      | some C =>
          rw [hfe] at h
          simp only [] at h
          rw [cacheFind_nil] at h
          simp only [DFA.addState] at h
          cases hmark : lowerMarkAccept nfa d0.states.length (ascList C)
              { d0 with states := d0.states ++ [[]] } with
          | none => rw [hmark] at h; simp at h
          | some dfa2 =>
              rw [hmark] at h
              rcases Option.map_eq_some'.1 h with ⟨r, _, hr⟩
              rw [← hr]

/-- Top-level consequences of a successful `NFA::lower`: the result's
start is state `0`, and there is a final cache satisfying the invariant
with the closure of the NFA start cached as state `0` and every entry
complete. -/
theorem NFA.lower_spec (nfa : NFA) {dfa : DFA} (h : nfa.lower = some dfa) :
    ∃ (st : Nat) (cacheF : List (Finset Nat × Nat)),
      nfa.start = some st ∧
      dfa.start = some 0 ∧
      (nfa.cloSet {st}, 0) ∈ cacheF ∧
      CacheInv nfa dfa cacheF ∧
      (∀ p ∈ cacheF, EntryDone nfa dfa cacheF p) := by
  unfold NFA.lower at h
  cases hstart : nfa.start with
  | none => rw [hstart] at h; simp at h
  | some st =>
      rw [hstart] at h
      simp only [] at h
      cases hrec : nfa.lowerRec (2 ^ nfa.states.length + 1) {st} ⟨[], none, ∅⟩ [] with
      | none => rw [hrec] at h; simp at h
      | some res =>
          rcases res with ⟨s0, d, cF⟩
          rw [hrec] at h
          simp only [Option.some.injEq] at h
          have hs0 : s0 = 0 := nfa.lowerRec_nil_ret _ _ _ _ hrec
          have hinv0 : CacheInv nfa ⟨[], none, ∅⟩ [] :=
            ⟨fun p hp => absurd hp (List.not_mem_nil p), List.Pairwise.nil,
              fun p hp => absurd hp (List.not_mem_nil p),
              fun q hq => absurd hq (Finset.not_mem_empty q)⟩
          obtain ⟨kinv, _, _, _, _, knew, kfe, kmem, kfind⟩ :=
            nfa.lowerRec_spec _ _ _ _ _ _ _ hrec hinv0
          subst h
          subst hs0
          refine ⟨st, cF, rfl, rfl, kmem, ?_, ?_⟩
          · exact kinv
          · intro p hp
            exact (knew p hp (List.not_mem_nil p)).2

theorem NFA.targetsOf_empty (nfa : NFA) (c : Nat) : nfa.targetsOf ∅ c = ∅ := by
  simp [NFA.targetsOf]

theorem NFA.foldSim_empty (nfa : NFA) :
    ∀ w : List Nat,
      w.foldl (fun cur c => nfa.cloSet (nfa.targetsOf cur c)) ∅ = ∅ := by
  intro w
  induction w with
  | nil => rfl
  | cons c cs ih =>
      rw [List.foldl_cons, nfa.targetsOf_empty, nfa.cloSet_empty]
      exact ih

/-- The DFA built by the subset construction simulates the reference NFA
subset run: from the cached state of a closure set `K`, the DFA walk
decides exactly whether the subset run from `K` ends in an accepting
set. -/
theorem lowerSim (nfa : NFA) (dfa : DFA) (cacheF : List (Finset Nat × Nat))
    (hinv : CacheInv nfa dfa cacheF) (hdone : ∀ p ∈ cacheF, EntryDone nfa dfa cacheF p) :
    ∀ (w : List Nat) (K : Finset Nat) (s : Nat), (K, s) ∈ cacheF →
      dfa.runFrom s w
      = some (decide (∃ q ∈ w.foldl (fun cur c => nfa.cloSet (nfa.targetsOf cur c)) K,
          q ∈ nfa.accept)) := by
  intro w
  induction w with
  | nil =>
      intro K s hmem
      simp only [DFA.runFrom, List.foldl_nil, Option.some.injEq]
      rw [decide_eq_decide]
      exact hinv.2.2.1 (K, s) hmem
  | cons c cs ih =>
      intro K s hmem
      have hslt : s < dfa.states.length := hinv.1 (K, s) hmem
      have hget : dfa.states[s]? = some dfa.states[s] := List.getElem?_eq_getElem hslt
      have hgetD : dfa.states.getD s [] = dfa.states[s] := by
        simp [List.getD_eq_getElem?_getD, hget]
      simp only [DFA.runFrom, hget, List.foldl_cons]
      rcases hdone (K, s) hmem c with ⟨hd1, hd2⟩
      by_cases hT : nfa.targetsOf K c = ∅
      · rw [hgetD] at hd1
        rw [hd1 hT]
        have hfold0 : List.foldl (fun cur c => nfa.cloSet (nfa.targetsOf cur c))
            (nfa.cloSet (nfa.targetsOf K c)) cs = ∅ := by
          rw [hT, nfa.cloSet_empty]
          exact nfa.foldSim_empty cs
        simp [hfold0]
      · rcases hd2 hT with ⟨t, hfind, hlook⟩
        rw [hgetD] at hlook
        rw [hlook]
        exact ih _ t (cacheFind_some_mem hfind)

/-- The lowered DFA's `testMatch` agrees with the NFA's reference subset
simulation whenever the DFA's accept set is nonempty (its own entry
assertion). -/
theorem NFA.lower_testMatch (nfa : NFA) {dfa : DFA} (hlow : nfa.lower = some dfa)
    (hacc : dfa.accept.Nonempty) (w : List Nat) :
    dfa.testMatch w = some (nfa.simulateSpec w) := by
  obtain ⟨st, cacheF, hstart, hdstart, hmem, hinv, hdone⟩ := nfa.lower_spec hlow
  have h0 : 0 < dfa.states.length := hinv.1 _ hmem
  unfold DFA.testMatch
  have hne : dfa.states ≠ [] := by
    intro hemp
    rw [hemp] at h0
    simp at h0
  simp only [List.isEmpty_iff, hne, if_false, hdstart]
  rw [if_neg (by
    rw [Finset.eq_empty_iff_forall_not_mem]
    rcases hacc with ⟨a, ha⟩
    intro hall
    exact hall a ha)]
  rw [lowerSim nfa dfa cacheF hinv hdone w _ _ hmem]
  unfold NFA.simulateSpec
  rw [hstart]

theorem lookupEdge_none_iff {edges : DEdges} {c : Nat} :
    lookupEdge edges c = none ↔ ∀ e ∈ edges, e.1 ≠ c := by
  unfold lookupEdge
  rw [Option.map_eq_none', List.find?_eq_none]
  constructor
  · intro h e he
    have := h e he
    simpa using this
  · intro h e he
    simpa using h e he

/-- Keys are unique within every DFA state's edge map (an invariant of
`std::map` that `DFA::addEdge`'s assert maintains in the model). -/
def DFA.KeysOK (dfa : DFA) : Prop :=
  ∀ l ∈ dfa.states, (l.map Prod.fst).Nodup

theorem DFA.addEdge_keysOK {dfa dfa' : DFA} {from_ c to_ : Nat}
    (h : dfa.addEdge from_ c to_ = some dfa') (hok : dfa.KeysOK) : dfa'.KeysOK := by
  unfold DFA.addEdge at h
  by_cases hlt : from_ < dfa.states.length
  · rw [dif_pos hlt] at h
    cases hlk : lookupEdge dfa.states[from_] c with
    | some u => rw [hlk] at h; simp at h
    | none =>
        rw [hlk] at h
        simp only [Option.some.injEq] at h
        subst h
        intro l hl
        simp only [] at hl
        rcases List.mem_or_eq_of_mem_set hl with hl' | rfl
        · exact hok l hl'
        · rw [List.map_append]
          refine List.Nodup.append (hok _ (List.getElem_mem hlt)) (by simp) ?_
          intro a ha hb
          simp only [List.map_cons, List.map_nil, List.mem_singleton] at hb
          subst hb
          rcases List.mem_map.1 ha with ⟨e, he, h1⟩
          exact (lookupEdge_none_iff.1 hlk e he) h1
  · rw [dif_neg hlt] at h
    simp at h

/-- Successful runs of the subset construction preserve unique edge keys
per DFA state. -/
theorem NFA.lowerRec_keysOK (nfa : NFA) :
    ∀ (fuel : Nat) (S : Finset Nat) (dfa : DFA)
      (cache : List (Finset Nat × Nat)) (res : Nat × DFA × List (Finset Nat × Nat)),
      nfa.lowerRec fuel S dfa cache = some res →
      dfa.KeysOK → res.2.1.KeysOK := by
  intro fuel
  induction fuel with
  | zero => intro S dfa cache res h _; simp [NFA.lowerRec] at h
  | succ fuel ih =>
      intro S dfa cache res h hok
      simp only [NFA.lowerRec] at h
      cases hfe : nfa.followEpsilons S with
      | none => rw [hfe] at h; simp at h
      | some C =>
          rw [hfe] at h
          simp only [] at h
          cases hcf : cacheFind cache C with
          | some s =>
              rw [hcf] at h
              simp only [Option.some.injEq] at h
              rw [← h]
              exact hok
          | none =>
              rw [hcf] at h
              simp only [DFA.addState] at h
              cases hmark : lowerMarkAccept nfa dfa.states.length (ascList C)
                  { dfa with states := dfa.states ++ [[]] } with
              | none => rw [hmark] at h; simp at h
              | some dfa2 =>
                  rw [hmark] at h
                  rcases Option.map_eq_some'.1 h with ⟨r, hfold, hr⟩
                  obtain ⟨hst2, _, _⟩ := lowerMarkAccept_spec nfa _ _ _ _ hmark
                  simp only at hst2
                  have hok2 : dfa2.KeysOK := by
                    intro l hl
                    rw [hst2] at hl
                    rcases List.mem_append.1 hl with hl' | hl'
                    · exact hok l hl'
                    · rw [List.mem_singleton.1 hl']
                      simp
                  have hfoldOK : ∀ (bs : List Nat)
                      (st : DFA × List (Finset Nat × Nat))
                      (out : DFA × List (Finset Nat × Nat)),
                      bs.foldlM (fun st c =>
                        match nfa.lowerRec fuel (nfa.targetsOf C c) st.1 st.2 with
                        | none => none
                        | some (t, dfa', cache') =>
                            match dfa'.addEdge dfa.states.length c t with
                            | none => none
                            | some dfa'' => some (dfa'', cache')) st = some out →
                      st.1.KeysOK → out.1.KeysOK := by
                    intro bs
                    induction bs with
                    | nil =>
                        intro st out hf hst
                        simp only [List.foldlM_nil, pure, Option.some.injEq] at hf
                        rw [← hf]
                        exact hst
                    | cons c bs ihbs =>
                        intro st out hf hst
                        rw [List.foldlM_cons] at hf
                        cases hrec : nfa.lowerRec fuel (nfa.targetsOf C c) st.1 st.2 with
                        | none => simp only [hrec] at hf; simp at hf
                        | some r₁ =>
                            rcases r₁ with ⟨t, d₁, κ₁⟩
                            cases hadd : d₁.addEdge dfa.states.length c t with
                            | none => simp only [hrec, hadd] at hf; simp at hf
                            | some d₂ =>
                                simp only [hrec, hadd, Option.bind_eq_bind,
                                  Option.some_bind] at hf
                                exact ihbs (d₂, κ₁) out hf
                                  (DFA.addEdge_keysOK hadd (ih _ _ _ _ hrec hst))
                  have := hfoldOK (ascList (nfa.labelsOf C)) (dfa2, _) r hfold hok2
                  rw [← hr]
                  exact this

theorem NFA.lower_keysOK (nfa : NFA) {dfa : DFA} (h : nfa.lower = some dfa) :
    dfa.KeysOK := by
  unfold NFA.lower at h
  cases hstart : nfa.start with
  | none => rw [hstart] at h; simp at h
  | some st =>
      rw [hstart] at h
      simp only [] at h
      cases hrec : nfa.lowerRec (2 ^ nfa.states.length + 1) {st} ⟨[], none, ∅⟩ [] with
      | none => rw [hrec] at h; simp at h
      | some res =>
          rcases res with ⟨s0, d, cF⟩
          rw [hrec] at h
          simp only [Option.some.injEq] at h
          have hd : d.KeysOK := nfa.lowerRec_keysOK _ _ _ _ _ hrec
            (fun l hl => absurd hl (List.not_mem_nil l))
          rw [← h]
          exact hd

/-- The bytes the `JitFunction` constructor writes between the single
quotes of an edge comparison (`outs << "if (ch == '" << edge.first ...`):
the raw byte itself, verbatim. -/
def jitLitBytes (b : Nat) : List Nat := [b]

/-- Value of a hexadecimal digit character, if any. -/
def hexDigitVal (c : Nat) : Option Nat :=
  if 48 ≤ c ∧ c ≤ 57 then some (c - 48)
  else if 97 ≤ c ∧ c ≤ 102 then some (c - 97 + 10)
  else if 65 ≤ c ∧ c ≤ 70 then some (c - 65 + 10)
  else none

/-- Modelled from the spec: the C compiler is an external collaborator, and
§4.5/§9 describe which character-literal bodies are valid C and denote the
byte `b` — a direct character (only for printable ASCII other than the
quote `'` (39) and backslash `\` (92)), a simple escape, or a hex escape
such as `\x41`. -/
def charLitRepresents (body : List Nat) (b : Nat) : Bool :=
  match body with
  | [92, 110] => b == 10
  | [92, 116] => b == 9
  | [92, 92] => b == 92
  | [92, 39] => b == 39
  | [92, 48] => b == 0
  | [92, 120, h1, h2] =>
      match hexDigitVal h1, hexDigitVal h2 with
      | some v1, some v2 => (v1 * 16 + v2) == b
      | _, _ => false
  | [c] => (32 ≤ c && c ≤ 126) && c != 39 && c != 92 && c == b
  | _ => false

/-- Modelled from the spec: the emitted translation unit compiles exactly
when every edge byte is representable by the raw literal the emitter
writes and every `goto state<j>` names an emitted label. -/
def DFA.jitCompiles (dfa : DFA) : Bool :=
  dfa.states.all (fun edges => edges.all (fun e =>
    charLitRepresents (jitLitBytes e.1) e.1 && decide (e.2 < dfa.states.length)))

/-- Ascending-key view of a DFA edge map: `std::map` stores and the
emitter iterates entries in ascending key order. -/
def mapAscList (edges : DEdges) : DEdges :=
  edges.insertionSort (fun e f => e.1 ≤ f.1)

/-- Execution of the emitted blocks: at block `s`, exhausted input returns
the accept flag of `s`; otherwise the next byte is consumed and the
emitted comparisons are scanned in emission order, jumping on the first
match and returning 0 on fallthrough. -/
def DFA.jitRunFrom (dfa : DFA) : Nat → List Nat → Option Bool
  | s, [] =>
      match dfa.states[s]? with
      | none => none
      | some _ => some (decide (s ∈ dfa.accept))
  | s, c :: cs =>
      match dfa.states[s]? with
      | none => none
      | some edges =>
          match lookupEdge (mapAscList edges) c with
          | none => some false
          | some t => dfa.jitRunFrom t cs

/-- `JitFunction` built from `dfa` and then applied to `w`: the function
body starts at the first emitted block `state0` (the emitter ignores
`m_start`; `lower` always numbers the DFA start 0), so execution begins at
state 0.  `none` models a translation unit that fails to build or load. -/
def DFA.jitMatch (dfa : DFA) (w : List Nat) : Option Bool :=
  if dfa.states.isEmpty then none
  else if dfa.jitCompiles then dfa.jitRunFrom 0 w
  else none

theorem keyUnique {l : DEdges} {c t t' : Nat} (hnd : (l.map Prod.fst).Nodup)
    (h1 : (c, t) ∈ l) (h2 : (c, t') ∈ l) : t = t' := by
  induction l with
  | nil => simp at h1
  | cons e l ih =>
      rw [List.map_cons, List.nodup_cons] at hnd
      rcases List.mem_cons.1 h1 with rfl | h1'
      · rcases List.mem_cons.1 h2 with he | h2'
        · exact (congrArg Prod.snd he).symm
        · have hnot : ∀ x, (c, x) ∉ l := by simpa using hnd.1
          exact absurd h2' (hnot t')
      · rcases List.mem_cons.1 h2 with rfl | h2'
        · have hnot : ∀ x, (c, x) ∉ l := by simpa using hnd.1
          exact absurd h1' (hnot t)
        · exact ih hnd.2 h1' h2'

theorem lookupEdge_congr_perm {l₁ l₂ : DEdges} (hperm : l₁.Perm l₂)
    (hnd : (l₁.map Prod.fst).Nodup) (c : Nat) :
    lookupEdge l₁ c = lookupEdge l₂ c := by
  cases h1 : lookupEdge l₁ c with
  | none =>
      cases h2 : lookupEdge l₂ c with
      | none => rfl
      | some t =>
          exact absurd rfl
            ((lookupEdge_none_iff.1 h1) _ (hperm.mem_iff.2 (lookupEdge_mem h2)))
  | some t =>
      cases h2 : lookupEdge l₂ c with
      | none =>
          exact absurd rfl
            ((lookupEdge_none_iff.1 h2) _ (hperm.mem_iff.1 (lookupEdge_mem h1)))
      | some t' =>
          rw [keyUnique hnd (lookupEdge_mem h1) (hperm.mem_iff.2 (lookupEdge_mem h2))]

/-- With unique keys per state (as `std::map` guarantees), scanning the
emitted ascending-order comparisons is the same as the map lookup, so the
jitted walk equals the DFA walk. -/
theorem DFA.jitRunFrom_eq (dfa : DFA) (hnd : dfa.KeysOK)
    (htgt : ∀ l ∈ dfa.states, ∀ e : Nat × Nat, e ∈ l → e.2 < dfa.states.length) :
    ∀ (w : List Nat) (s : Nat), s < dfa.states.length →
      dfa.jitRunFrom s w = dfa.runFrom s w := by
  intro w
  induction w with
  | nil =>
      intro s hs
      simp [DFA.jitRunFrom, DFA.runFrom, List.getElem?_eq_getElem hs]
  | cons c cs ih =>
      intro s hs
      have hget : dfa.states[s]? = some dfa.states[s] := List.getElem?_eq_getElem hs
      simp only [DFA.jitRunFrom, DFA.runFrom, hget]
      have hperm : dfa.states[s].Perm (mapAscList dfa.states[s]) :=
        (List.perm_insertionSort _ _).symm
      rw [← lookupEdge_congr_perm hperm (hnd _ (List.getElem_mem hs)) c]
      cases hlk : lookupEdge dfa.states[s] c with
      | none => rfl
      | some t =>
          exact ih t (htgt _ (List.getElem_mem hs) _ (lookupEdge_mem hlk))

/-- For a DFA produced by `lower` whose generated C compiles, the JIT
backend computes exactly `DFA::testMatch` (both walk from state 0). -/
theorem NFA.lower_jitMatch (nfa : NFA) {dfa : DFA} (hlow : nfa.lower = some dfa)
    (hacc : dfa.accept.Nonempty) (hjit : dfa.jitCompiles = true) (w : List Nat) :
    dfa.jitMatch w = dfa.testMatch w := by
  obtain ⟨st, cacheF, hstart, hdstart, hmem, hinv, hdone⟩ := nfa.lower_spec hlow
  have h0 : 0 < dfa.states.length := hinv.1 _ hmem
  have hne : dfa.states ≠ [] := by
    intro hemp
    rw [hemp] at h0
    simp at h0
  have htgt : ∀ l ∈ dfa.states, ∀ e : Nat × Nat, e ∈ l → e.2 < dfa.states.length := by
    intro l hl e he
    have h1 : dfa.states.all (fun edges => edges.all (fun e =>
        charLitRepresents (jitLitBytes e.1) e.1
          && decide (e.2 < dfa.states.length))) = true := hjit
    have h2 := List.all_eq_true.1 h1 l hl
    have h3 := List.all_eq_true.1 h2 e he
    rw [Bool.and_eq_true] at h3
    simpa using h3.2
  unfold DFA.jitMatch DFA.testMatch
  simp only [List.isEmpty_iff, hne, if_false, hjit, if_true, hdstart]
  rw [if_neg (by
    rw [Finset.eq_empty_iff_forall_not_mem]
    rcases hacc with ⟨a, ha⟩
    intro hall
    exact hall a ha)]
  exact dfa.jitRunFrom_eq (nfa.lower_keysOK hlow) htgt w 0 h0

/-- Renumbering of copied edges in `merge`: the state map sends source
state `i` to `off + i`, so an edge's label is kept and its target
shifted. -/
def shiftEdges (off : Nat) (l : List NEdge) : List NEdge :=
  l.map (fun e => (e.1, off + e.2))

/-- `merge(dst, dstref, src)`: renumber the source states into `dst` (the
map built by the first loop sends `i` to `|dst| + i`), copy every source
edge under that numbering, connect `dstref` to the copied source start by
an epsilon edge, allocate the exit state, and connect every copied source
accept state to the exit by an epsilon edge.  `none` models the aborting
`newEdges.at(...)` lookups when the source start, an edge target, or an
accept state is out of the source's range (and the unset-start sentinel).
The unordered accept set is visited in ascending order. -/
def merge (dst : NFA) (dstref : Nat) (src : NFA) : Option (NFA × Nat) :=
  let dstLen := dst.states.length
  let srcLen := src.states.length
  let dst1 : NFA := { dst with states := dst.states ++ List.replicate srcLen [] }
  match (List.range srcLen).foldlM (fun d i =>
      (src.states.getD i []).foldlM (fun d' e =>
        if e.2 < srcLen then d'.addEdge (dstLen + i) e.1 (dstLen + e.2) else none) d) dst1 with
  | none => none
  | some dst2 =>
      match src.start with
      | none => none
      | some s0 =>
          if s0 < srcLen then
            match dst2.addEdge dstref none (dstLen + s0) with
            | none => none
            | some dst3 =>
                let p := dst3.addState
                match (ascList src.accept).foldlM (fun d q =>
                    if q < srcLen then d.addEdge (dstLen + q) none p.2 else none) p.1 with
                | none => none
                | some dst5 => some (dst5, p.2)
          else none

theorem setGetSelf {l : List (List NEdge)} {n : Nat} (h : n < l.length) :
    l.set n l[n] = l := by
  apply List.ext_getElem?
  intro i
  by_cases hi : i = n
  · subst hi
    simp [List.getElem?_set_self', List.getElem?_eq_getElem h]
  · simp [List.getElem?_set_ne (Ne.symm hi)]

/-- The inner loop of `merge`'s edge copy: append a source state's edges,
renumbered, to one destination state. -/
theorem addEdgesFold (dstLen srcLen pos : Nat) :
    ∀ (es : List NEdge) (d : NFA), pos < d.states.length →
      (∀ e ∈ es, e.2 < srcLen) →
      es.foldlM (fun d' e =>
        if e.2 < srcLen then d'.addEdge pos e.1 (dstLen + e.2) else none) d
      = some { d with states := d.states.set pos (d.states.getD pos [] ++ shiftEdges dstLen es) } := by
  intro es
  induction es with
  | nil =>
      intro d hpos _
      simp only [List.foldlM_nil, pure, Option.some.injEq]
      have hgetD : d.states.getD pos [] = d.states[pos] := by
        simp [List.getD_eq_getElem?_getD, List.getElem?_eq_getElem hpos]
      rw [shiftEdges, List.map_nil, List.append_nil, hgetD, setGetSelf hpos]
  | cons e es ih =>
      intro d hpos hall
      rw [List.foldlM_cons]
      have hgetD : d.states.getD pos [] = d.states[pos] := by
        simp [List.getD_eq_getElem?_getD, List.getElem?_eq_getElem hpos]
      set d1 : NFA := { d with states := d.states.set pos (d.states[pos] ++ [(e.1, dstLen + e.2)]) } with hd1
      have h1 : (if e.2 < srcLen then d.addEdge pos e.1 (dstLen + e.2) else none) = some d1 := by
        rw [if_pos (hall e (List.mem_cons_self _ _))]
        unfold NFA.addEdge
        rw [dif_pos hpos]
      rw [h1]
      simp only [Option.bind_eq_bind, Option.some_bind]
      have hpos1 : pos < d1.states.length := by rw [hd1]; simpa using hpos
      rw [ih d1 hpos1 (fun x hx => hall x (List.mem_cons_of_mem _ hx))]
      congr 1
      have hd1get : d1.states.getD pos [] = d.states[pos] ++ [(e.1, dstLen + e.2)] := by
        rw [hd1]
        simp [List.getD_eq_getElem?_getD, List.getElem?_set_self', hpos]
      rw [hd1get, hd1]
      simp only [List.set_set]
      rw [hgetD]
      congr 1
      rw [List.append_assoc]
      rfl

/-- Folding a per-index append over pairwise-distinct positions: the final
automaton appends `A i` to position `pos i` and touches nothing else. -/
theorem foldAppendAt (pos : Nat → Nat) (A : Nat → List NEdge)
    (step : NFA → Nat → Option NFA) :
    ∀ (l : List Nat),
      (∀ (d : NFA) (i : Nat), i ∈ l → pos i < d.states.length →
        step d i = some { d with states := d.states.set (pos i) (d.states.getD (pos i) [] ++ A i) }) →
      l.Pairwise (fun a b => pos a ≠ pos b) →
      ∀ d : NFA, (∀ i ∈ l, pos i < d.states.length) →
      ∃ d', l.foldlM step d = some d' ∧
        d'.start = d.start ∧ d'.accept = d.accept ∧
        d'.states.length = d.states.length ∧
        (∀ j, (∀ i ∈ l, j ≠ pos i) → d'.states.getD j [] = d.states.getD j []) ∧
        (∀ i ∈ l, d'.states.getD (pos i) [] = d.states.getD (pos i) [] ++ A i) := by
  intro l
  induction l with
  | nil =>
      intro _ _ d _
      exact ⟨d, by simp [List.foldlM_nil, pure], rfl, rfl, rfl,
        fun j _ => rfl, fun i hi => absurd hi (List.not_mem_nil i)⟩
  | cons i l ih =>
      intro hstep hpair d hbound
      have hpos : pos i < d.states.length := hbound i (List.mem_cons_self _ _)
      set d1 : NFA := { d with states := d.states.set (pos i) (d.states.getD (pos i) [] ++ A i) } with hd1
      have hlen1 : d1.states.length = d.states.length := by rw [hd1]; simp
      have hd1self : d1.states.getD (pos i) [] = d.states.getD (pos i) [] ++ A i := by
        rw [hd1]
        simp [List.getD_eq_getElem?_getD, List.getElem?_set_self', hpos]
      have hd1other : ∀ j, j ≠ pos i → d1.states.getD j [] = d.states.getD j [] := by
        intro j hj
        rw [hd1]
        simp [List.getD_eq_getElem?_getD, List.getElem?_set_ne (Ne.symm hj)]
      obtain ⟨d', hfold, hstart, hacc, hlen, huntouched, happ⟩ :=
        ih (fun d i' hi' => hstep d i' (List.mem_cons_of_mem _ hi'))
          (List.pairwise_cons.1 hpair).2 d1
          (fun i' hi' => hlen1 ▸ hbound i' (List.mem_cons_of_mem _ hi'))
      refine ⟨d', ?_, hstart, hacc, hlen.trans hlen1, ?_, ?_⟩
      · rw [List.foldlM_cons, hstep d i (List.mem_cons_self _ _) hpos]
        simp only [Option.bind_eq_bind, Option.some_bind]
        rw [← hd1]
        exact hfold
      · intro j hj
        rw [huntouched j (fun i' hi' => hj i' (List.mem_cons_of_mem _ hi')),
          hd1other j (hj i (List.mem_cons_self _ _))]
      · intro i' hi'
        rcases List.mem_cons.1 hi' with rfl | hi''
        · rw [huntouched (pos i') (fun x hx =>
            (List.pairwise_cons.1 hpair).1 x hx), hd1self]
        · rw [happ i' hi'', hd1other (pos i')
            (Ne.symm ((List.pairwise_cons.1 hpair).1 i' hi''))]

/-- Pointwise characterization of a successful `merge`: the exit state is
`|dst| + |src|`, the anchor gains exactly one epsilon edge to the copied
source start, untouched destination states keep their edge lists, each
copied state carries the shifted source edges plus (for source accept
states) the epsilon edge to the exit, the exit has no outgoing edges, and
the destination's start and accept set are unchanged. -/
theorem merge_spec (dst : NFA) (dstref : Nat) (src : NFA) (s0 : Nat)
    (hstart : src.start = some s0) (hs0 : s0 < src.states.length)
    (hT : ∀ l ∈ src.states, ∀ e : NEdge, e ∈ l → e.2 < src.states.length)
    (hacc : ∀ q ∈ src.accept, q < src.states.length)
    (href : dstref < dst.states.length) :
    ∃ M, merge dst dstref src = some (M, dst.states.length + src.states.length) ∧
      M.start = dst.start ∧ M.accept = dst.accept ∧
      M.states.length = dst.states.length + src.states.length + 1 ∧
      (∀ i, i < dst.states.length → i ≠ dstref →
        M.states.getD i [] = dst.states.getD i []) ∧
      M.states.getD dstref []
        = dst.states.getD dstref [] ++ [(none, dst.states.length + s0)] ∧
      (∀ i, i < src.states.length → M.states.getD (dst.states.length + i) []
        = shiftEdges dst.states.length (src.states.getD i [])
          ++ (if i ∈ src.accept then [(none, dst.states.length + src.states.length)] else [])) ∧
      M.states.getD (dst.states.length + src.states.length) [] = [] := by
  unfold merge
  simp only []
  have len1 : ({ dst with states := dst.states ++ List.replicate src.states.length [] }
      : NFA).states.length = dst.states.length + src.states.length := by simp
  have hrepl : ∀ i, i < src.states.length →
      ({ dst with states := dst.states ++ List.replicate src.states.length [] }
        : NFA).states.getD (dst.states.length + i) [] = [] := by
    intro i hi
    simp only [List.getD_eq_getElem?_getD]
    rw [List.getElem?_append_right (by omega)]
    simp only [Nat.add_sub_cancel_left]
    rw [List.getElem?_replicate]
    simp [hi]
  have hleft1 : ∀ i, i < dst.states.length →
      ({ dst with states := dst.states ++ List.replicate src.states.length [] }
        : NFA).states.getD i [] = dst.states.getD i [] := by
    intro i hi
    simp only [List.getD_eq_getElem?_getD]
    rw [List.getElem?_append_left hi]
  obtain ⟨dst2, hfold2, h2start, h2acc, h2len, h2un, h2app⟩ :=
    foldAppendAt (fun i => dst.states.length + i)
      (fun i => shiftEdges dst.states.length (src.states.getD i []))
      (fun d i =>
        (src.states.getD i []).foldlM (fun d' e =>
          if e.2 < src.states.length then
            d'.addEdge (dst.states.length + i) e.1 (dst.states.length + e.2)
          else none) d)
      (List.range src.states.length)
      (by
        intro d i hi hpos
        apply addEdgesFold
        · exact hpos
        · intro e he
          have hilt : i < src.states.length := List.mem_range.1 hi
          have : src.states.getD i [] = src.states[i] := by
            simp [List.getD_eq_getElem?_getD, List.getElem?_eq_getElem hilt]
          rw [this] at he
          exact hT _ (List.getElem_mem hilt) e he)
      ((List.pairwise_lt_range _).imp
        (fun hab heq => absurd (Nat.add_left_cancel heq) (Nat.ne_of_lt hab)))
      { dst with states := dst.states ++ List.replicate src.states.length [] }
      (by
        intro i hi
        rw [len1]
        exact Nat.add_lt_add_left (List.mem_range.1 hi) dst.states.length)
  rw [hfold2]
  simp only []
  rw [hstart]
  simp only []
  rw [if_pos hs0]
  have len2 : dst2.states.length = dst.states.length + src.states.length :=
    h2len.trans len1
  have hb2 : dstref < dst2.states.length := by omega
  have hC : ∃ dst3, dst2.addEdge dstref none (dst.states.length + s0) = some dst3 ∧
      dst3.states = dst2.states.set dstref
        (dst2.states.getD dstref [] ++ [(none, dst.states.length + s0)]) ∧
      dst3.start = dst2.start ∧ dst3.accept = dst2.accept ∧
      dst3.states.length = dst2.states.length := by
    have hgd : dst2.states.getD dstref [] = dst2.states[dstref] := by
      simp [List.getD_eq_getElem?_getD, List.getElem?_eq_getElem hb2]
    refine ⟨{ dst2 with states := dst2.states.set dstref (dst2.states[dstref] ++ [(none, dst.states.length + s0)]) },
      ?_, ?_, rfl, rfl, ?_⟩
    · unfold NFA.addEdge
      rw [dif_pos hb2]
    · simp only [hgd]
    · simp
  obtain ⟨dst3, haddC, h3states, h3start, h3acc, h3len⟩ := hC
  rw [haddC]
  simp only [NFA.addState]
  have len3 : dst3.states.length = dst.states.length + src.states.length :=
    h3len.trans len2
  have len4 : (dst3.states ++ [[]]).length = dst.states.length + src.states.length + 1 := by
    simp [len3]
  obtain ⟨dst5, hfoldE, h5start, h5acc, h5len, h5un, h5app⟩ :=
    foldAppendAt (fun q => dst.states.length + q)
      (fun q => [(none, dst3.states.length)])
      (fun d q =>
        if q < src.states.length then d.addEdge (dst.states.length + q) none
          dst3.states.length else none)
      (ascList src.accept)
      (by
        intro d q hq hpos
        simp only []
        rw [if_pos (hacc q (mem_ascList.1 hq))]
        have hgd : d.states.getD (dst.states.length + q) []
            = d.states[dst.states.length + q] := by
          simp [List.getD_eq_getElem?_getD, List.getElem?_eq_getElem hpos]
        unfold NFA.addEdge
        rw [dif_pos hpos]
        rw [hgd])
      ((nodup_ascList src.accept).imp
        (fun hab heq => hab (Nat.add_left_cancel heq)))
      { dst3 with states := dst3.states ++ [[]] }
      (by
        intro q hq
        show dst.states.length + q < ({ dst3 with states := dst3.states ++ [[]] } : NFA).states.length
        have hlen : ({ dst3 with states := dst3.states ++ [[]] } : NFA).states.length
            = dst.states.length + src.states.length + 1 := len4
        rw [hlen]
        have := hacc q (mem_ascList.1 hq)
        omega)
  rw [hfoldE]
  refine ⟨dst5, ?_, ?_, ?_, ?_, ?_, ?_, ?_, ?_⟩
  · rw [h3len, len2]
  · rw [h5start, h3start, h2start]
  · rw [h5acc, h3acc, h2acc]
  · rw [h5len]
    simpa using len4
  · -- untouched destination states
    intro i hi hine
    rw [h5un i (fun q hq => by
      intro heq
      have heq' : i = dst.states.length + q := heq
      omega)]
    have hi4 : ({ dst3 with states := dst3.states ++ [[]] } : NFA).states.getD i []
        = dst3.states.getD i [] := by
      simp only [List.getD_eq_getElem?_getD]
      rw [List.getElem?_append_left (by omega)]
    rw [hi4, h3states]
    simp only [List.getD_eq_getElem?_getD]
    rw [List.getElem?_set_ne (Ne.symm hine)]
    rw [← List.getD_eq_getElem?_getD, ← List.getD_eq_getElem?_getD]
    rw [h2un i (fun q hq => by
      intro heq
      have heq' : i = dst.states.length + q := heq
      omega), hleft1 i hi]
  · -- the anchor
    rw [h5un dstref (fun q hq => by
      intro heq
      have heq' : dstref = dst.states.length + q := heq
      omega)]
    have hi4 : ({ dst3 with states := dst3.states ++ [[]] } : NFA).states.getD dstref []
        = dst3.states.getD dstref [] := by
      simp only [List.getD_eq_getElem?_getD]
      rw [List.getElem?_append_left (by omega)]
    rw [hi4, h3states]
    have hset : (dst2.states.set dstref
        (dst2.states.getD dstref [] ++ [(none, dst.states.length + s0)])).getD dstref []
        = dst2.states.getD dstref [] ++ [(none, dst.states.length + s0)] := by
      simp only [List.getD_eq_getElem?_getD]
      rw [List.getElem?_set_self', List.getElem?_eq_getElem hb2]
      simp
    rw [hset]
    rw [h2un dstref (fun q hq => by
      intro heq
      have heq' : dstref = dst.states.length + q := heq
      omega), hleft1 dstref href]
  · -- copied source states
    intro i hi
    have hmain : ({ dst3 with states := dst3.states ++ [[]] } : NFA).states.getD
        (dst.states.length + i) [] = dst3.states.getD (dst.states.length + i) [] := by
      simp only [List.getD_eq_getElem?_getD]
      rw [List.getElem?_append_left (by omega)]
    have h3i : dst3.states.getD (dst.states.length + i) []
        = dst2.states.getD (dst.states.length + i) [] := by
      rw [h3states]
      simp only [List.getD_eq_getElem?_getD]
      rw [List.getElem?_set_ne (by omega)]
    have h2i : dst2.states.getD (dst.states.length + i) []
        = shiftEdges dst.states.length (src.states.getD i []) := by
      have := h2app i (List.mem_range.2 hi)
      simp only [] at this
      rw [this, hrepl i hi]
      rfl
    by_cases hiacc : i ∈ src.accept
    · rw [if_pos hiacc]
      have := h5app i (mem_ascList.2 hiacc)
      simp only [] at this
      rw [this, hmain, h3i, h2i, len3]
    · rw [if_neg hiacc]
      rw [h5un (dst.states.length + i) (fun q hq => by
        intro heq
        have heq' : dst.states.length + i = dst.states.length + q := heq
        have hiq : i = q := Nat.add_left_cancel heq'
        exact hiacc (hiq ▸ mem_ascList.1 hq))]
      rw [hmain, h3i, h2i, List.append_nil]
  · -- the exit state
    rw [h5un (dst.states.length + src.states.length) (fun q hq => by
      intro heq
      have heq' : dst.states.length + src.states.length = dst.states.length + q := heq
      have := hacc q (mem_ascList.1 hq)
      omega)]
    simp only [List.getD_eq_getElem?_getD]
    have : dst3.states.length = dst.states.length + src.states.length := len3
    rw [← this, List.getElem?_concat_length]
    rfl

theorem foldlmEachGen {α β : Type} (f : β → α → Option β) :
    ∀ (l : List α) (b b' : β), l.foldlM f b = some b' →
      ∀ x ∈ l, ∃ c c', f c x = some c' := by
  intro l
  induction l with
  | nil => intro b b' _ x hx; exact absurd hx (List.not_mem_nil x)
  | cons y l ih =>
      intro b b' h x hx
      rw [List.foldlM_cons] at h
      cases hfy : f b y with
      | none => rw [hfy] at h; simp at h
      | some c =>
          rw [hfy] at h
          simp only [Option.bind_eq_bind, Option.some_bind] at h
          rcases List.mem_cons.1 hx with rfl | hx'
          · exact ⟨b, c, hfy⟩
          · exact ih c b' h x hx'

/-- A successful `merge` forces the source automaton to be well-shaped:
the `newEdges.at(...)` lookups passed, so the source start exists and every
source edge target and accept state is in the source's range. -/
theorem merge_inv {dst : NFA} {dstref : Nat} {src : NFA} {M : NFA} {exit : Nat}
    (h : merge dst dstref src = some (M, exit)) :
    ∃ s0, src.start = some s0 ∧ s0 < src.states.length ∧
      (∀ l ∈ src.states, ∀ e : NEdge, e ∈ l → e.2 < src.states.length) ∧
      (∀ q ∈ src.accept, q < src.states.length) := by
  unfold merge at h
  simp only [] at h
  cases hfold : (List.range src.states.length).foldlM (fun d i =>
      (src.states.getD i []).foldlM (fun d' e =>
        if e.2 < src.states.length then
          d'.addEdge (dst.states.length + i) e.1 (dst.states.length + e.2)
        else none) d)
      { dst with states := dst.states ++ List.replicate src.states.length [] } with
  | none => rw [hfold] at h; simp at h
  | some dst2 =>
      rw [hfold] at h
      simp only [] at h
      have hT : ∀ l ∈ src.states, ∀ e : NEdge, e ∈ l → e.2 < src.states.length := by
        intro l hl e he
        rcases List.mem_iff_getElem.1 hl with ⟨i, hilt, hi⟩
        have hgd : src.states.getD i [] = l := by
          simp [List.getD_eq_getElem?_getD, List.getElem?_eq_getElem hilt, hi]
        rcases foldlmEachGen _ _ _ _ hfold i (List.mem_range.2 hilt) with ⟨c, c', hc⟩
        rw [hgd] at hc
        rcases foldlmEachGen _ _ _ _ hc e he with ⟨d, d', hd⟩
        by_contra hge
        rw [if_neg hge] at hd
        simp at hd
      cases hstart : src.start with
      | none => rw [hstart] at h; simp at h
      | some s0 =>
          rw [hstart] at h
          simp only [] at h
          by_cases hs0 : s0 < src.states.length
          · rw [if_pos hs0] at h
            refine ⟨s0, rfl, hs0, hT, ?_⟩
            cases haddC : dst2.addEdge dstref none (dst.states.length + s0) with
            | none => rw [haddC] at h; simp at h
            | some dst3 =>
                rw [haddC] at h
                simp only [NFA.addState] at h
                cases hfoldE : (ascList src.accept).foldlM (fun d q =>
                    if q < src.states.length then
                      d.addEdge (dst.states.length + q) none dst3.states.length
                    else none) { dst3 with states := dst3.states ++ [[]] } with
                | none => rw [hfoldE] at h; simp at h
                | some dst5 =>
                    intro q hq
                    rcases foldlmEachGen _ _ _ _ hfoldE q (mem_ascList.2 hq) with ⟨c, c', hc⟩
                    by_contra hge
                    rw [if_neg hge] at hc
                    simp at hc
          · rw [if_neg hs0] at h
            simp at h

/-- The closed combinator set (`Char`, `And`, `Or`, `Maybe`, `OneOrMore`)
as an expression tree with the single `toNFA` operation. -/
inductive Expr : Type
  | char (c : Nat)
  | and (a b : Expr)
  | or (a b : Expr)
  | maybe (a : Expr)
  | oneOrMore (a : Expr)

/-- The `toNFA` builders, following the C++ member functions: each
allocates a fresh start, splices the operand automata with `merge`, and
marks the accepting exits. -/
def Expr.toNFA : Expr → Option NFA
  | .char c =>
      let nfa0 : NFA := ⟨[], none, ∅⟩
      let p1 := nfa0.addState
      let nfa1 := p1.1.setStart p1.2
      let p2 := nfa1.addState
      match p2.1.addMatch p2.2 with
      | none => none
      | some nfa2 =>
          match nfa2.addEdge p1.2 (some c) p2.2 with
          | none => none
          | some nfa3 => some nfa3
  | .and a b =>
      let nfa0 : NFA := ⟨[], none, ∅⟩
      let p := nfa0.addState
      let nfa1 := p.1.setStart p.2
      match a.toNFA with
      | none => none
      | some na =>
          match merge nfa1 p.2 na with
          | none => none
          | some (nfa2, mid) =>
              match b.toNFA with
              | none => none
              | some nb =>
                  match merge nfa2 mid nb with
                  | none => none
                  | some (nfa3, m) => nfa3.addMatch m
  | .or a b =>
      let nfa0 : NFA := ⟨[], none, ∅⟩
      let p := nfa0.addState
      let nfa1 := p.1.setStart p.2
      match a.toNFA with
      | none => none
      | some na =>
          match merge nfa1 p.2 na with
          | none => none
          | some (nfa2, ma) =>
              match b.toNFA with
              | none => none
              | some nb =>
                  match merge nfa2 p.2 nb with
                  | none => none
                  | some (nfa3, mb) =>
                      match nfa3.addMatch ma with
                      | none => none
                      | some nfa4 => nfa4.addMatch mb
  | .maybe a =>
      let nfa0 : NFA := ⟨[], none, ∅⟩
      let p := nfa0.addState
      let nfa1 := p.1.setStart p.2
      match a.toNFA with
      | none => none
      | some na =>
          match merge nfa1 p.2 na with
          | none => none
          | some (nfa2, m) =>
              match nfa2.addMatch m with
              | none => none
              | some nfa3 => nfa3.addEdge p.2 none m
  | .oneOrMore a =>
      let nfa0 : NFA := ⟨[], none, ∅⟩
      let p := nfa0.addState
      let nfa1 := p.1.setStart p.2
      match a.toNFA with
      | none => none
      | some na =>
          match merge nfa1 p.2 na with
          | none => none
          | some (nfa2, m) =>
              match nfa2.addMatch m with
              | none => none
              | some nfa3 => nfa3.addEdge m none p.2

/-- Well-formedness of the automata the combinators build: a start naming
an existing state, at least one state, a nonempty in-range accept set, and
every edge target in range. -/
def WFE (nfa : NFA) : Prop :=
  (∃ s, nfa.start = some s ∧ s < nfa.states.length) ∧
  nfa.states ≠ [] ∧
  nfa.accept.Nonempty ∧
  (∀ q ∈ nfa.accept, q < nfa.states.length) ∧
  (∀ l ∈ nfa.states, ∀ e : NEdge, e ∈ l → e.2 < nfa.states.length)

theorem WFE.toWF {nfa : NFA} (h : WFE nfa) : nfa.WF :=
  ⟨h.2.1, h.1, h.2.2.1, h.2.2.2.2⟩

/-- Every `toNFA` builder starts from one fresh state marked as start. -/
def nfaFresh : NFA := ⟨[[]], some 0, ∅⟩

/-- Combined shape consequences of a successful `merge` into a
target-closed destination. -/
theorem merge_wf_full {dst : NFA} {dstref : Nat} {src : NFA} {M : NFA} {exit : Nat}
    (h : merge dst dstref src = some (M, exit))
    (hdT : ∀ l ∈ dst.states, ∀ e : NEdge, e ∈ l → e.2 < dst.states.length)
    (href : dstref < dst.states.length) :
    exit = dst.states.length + src.states.length ∧
    M.start = dst.start ∧ M.accept = dst.accept ∧
    M.states.length = dst.states.length + src.states.length + 1 ∧
    (∀ l ∈ M.states, ∀ e : NEdge, e ∈ l → e.2 < M.states.length) := by
  obtain ⟨s0, hstart, hs0, hsT, hsacc⟩ := merge_inv h
  obtain ⟨M₀, hm₀, hmstart, hmacc, hmlen, hmun, hmref, hmcopy, hmexit⟩ :=
    merge_spec dst dstref src s0 hstart hs0 hsT hsacc href
  rw [h] at hm₀
  simp only [Option.some.injEq, Prod.mk.injEq] at hm₀
  obtain ⟨rfl, rfl⟩ := hm₀
  refine ⟨rfl, hmstart, hmacc, hmlen, ?_⟩
  intro l hl e he
  rcases List.mem_iff_getElem.1 hl with ⟨j, hjlt, hj⟩
  have hgd : M.states.getD j [] = l := by
    simp [List.getD_eq_getElem?_getD, List.getElem?_eq_getElem hjlt, hj]
  rw [hmlen] at hjlt
  by_cases hjd : j < dst.states.length
  · by_cases hjr : j = dstref
    · subst hjr
      rw [hmref] at hgd
      rw [← hgd] at he
      rcases List.mem_append.1 he with he' | he'
      · have := hdT _ (by
          rcases List.mem_iff_getElem.1 (List.mem_iff_getElem.2
            ⟨j, hjd, rfl⟩) with _
          exact List.getElem_mem hjd) e (by
            have hgdd : dst.states.getD j [] = dst.states[j] := by
              simp [List.getD_eq_getElem?_getD, List.getElem?_eq_getElem hjd]
            rw [hgdd] at he'
            exact he')
        omega
      · rw [List.mem_singleton.1 he']
        simp only []
        omega
    · rw [hmun j hjd hjr] at hgd
      rw [← hgd] at he
      have hgdd : dst.states.getD j [] = dst.states[j] := by
        simp [List.getD_eq_getElem?_getD, List.getElem?_eq_getElem hjd]
      rw [hgdd] at he
      have := hdT _ (List.getElem_mem hjd) e he
      omega
  · by_cases hje : j = dst.states.length + src.states.length
    · subst hje
      rw [hmexit] at hgd
      rw [← hgd] at he
      simp at he
    · have hji : j - dst.states.length < src.states.length := by omega
      have hjeq : j = dst.states.length + (j - dst.states.length) := by omega
      rw [hjeq, hmcopy _ hji] at hgd
      rw [← hgd] at he
      rcases List.mem_append.1 he with he' | he'
      · rcases List.mem_map.1 he' with ⟨e', he'', rfl⟩
        simp only []
        have : e'.2 < src.states.length := by
          by_cases hjs : j - dst.states.length < src.states.length
          · have hgds : src.states.getD (j - dst.states.length) []
                = src.states[j - dst.states.length] := by
              simp [List.getD_eq_getElem?_getD, List.getElem?_eq_getElem hjs]
            rw [hgds] at he''
            exact hsT _ (List.getElem_mem hjs) e' he''
          · omega
        omega
      · by_cases hacc2 : j - dst.states.length ∈ src.accept
        · rw [if_pos hacc2] at he'
          rw [List.mem_singleton.1 he']
          simp only []
          omega
        · rw [if_neg hacc2] at he'
          simp at he'

theorem toNFA_char_eq (c : Nat) :
    (Expr.char c).toNFA = some ⟨[[(some c, 1)], []], some 0, {1}⟩ := rfl

theorem toNFA_and_eq (a b : Expr) :
    (Expr.and a b).toNFA =
      (match a.toNFA with
      | none => none
      | some na =>
          match merge nfaFresh 0 na with
          | none => none
          | some (nfa2, mid) =>
              match b.toNFA with
              | none => none
              | some nb =>
                  match merge nfa2 mid nb with
                  | none => none
                  | some (nfa3, m) => nfa3.addMatch m) := rfl

theorem toNFA_or_eq (a b : Expr) :
    (Expr.or a b).toNFA =
      (match a.toNFA with
      | none => none
      | some na =>
          match merge nfaFresh 0 na with
          | none => none
          | some (nfa2, ma) =>
              match b.toNFA with
              | none => none
              | some nb =>
                  match merge nfa2 0 nb with
                  | none => none
                  | some (nfa3, mb) =>
                      match nfa3.addMatch ma with
                      | none => none
                      | some nfa4 => nfa4.addMatch mb) := rfl

theorem toNFA_maybe_eq (a : Expr) :
    (Expr.maybe a).toNFA =
      (match a.toNFA with
      | none => none
      | some na =>
          match merge nfaFresh 0 na with
          | none => none
          | some (nfa2, m) =>
              match nfa2.addMatch m with
              | none => none
              | some nfa3 => nfa3.addEdge 0 none m) := rfl

theorem toNFA_plus_eq (a : Expr) :
    (Expr.oneOrMore a).toNFA =
      (match a.toNFA with
      | none => none
      | some na =>
          match merge nfaFresh 0 na with
          | none => none
          | some (nfa2, m) =>
              match nfa2.addMatch m with
              | none => none
              | some nfa3 => nfa3.addEdge m none 0) := rfl

theorem nfaFresh_T :
    ∀ l ∈ nfaFresh.states, ∀ e : NEdge, e ∈ l → e.2 < nfaFresh.states.length := by
  intro l hl e he
  have : l = [] := List.mem_singleton.1 hl
  subst this
  exact absurd he (List.not_mem_nil e)

theorem NFA.addMatch_eq {nfa : NFA} {m : Nat} (h : m ∉ nfa.accept) :
    nfa.addMatch m = some { nfa with accept := insert m nfa.accept } := by
  unfold NFA.addMatch
  rw [if_neg h]

theorem NFA.addEdge_eq {nfa : NFA} {f t : Nat} {c : Option Nat} (h : f < nfa.states.length) :
    nfa.addEdge f c t
      = some { nfa with states := nfa.states.set f (nfa.states.getD f [] ++ [(c, t)]) } := by
  unfold NFA.addEdge
  rw [dif_pos h]
  have : nfa.states.getD f [] = nfa.states[f] := by
    simp [List.getD_eq_getElem?_getD, List.getElem?_eq_getElem h]
  rw [this]

theorem addEdge_T {nfa : NFA} {f t : Nat} {c : Option Nat}
    (hT : ∀ l ∈ nfa.states, ∀ e : NEdge, e ∈ l → e.2 < nfa.states.length)
    (ht : t < nfa.states.length) :
    ∀ l ∈ (nfa.states.set f (nfa.states.getD f [] ++ [(c, t)])),
      ∀ e : NEdge, e ∈ l → e.2 < nfa.states.length := by
  intro l hl e he
  rcases List.mem_or_eq_of_mem_set hl with hl' | rfl
  · exact hT l hl' e he
  · rcases List.mem_append.1 he with he' | he'
    · by_cases hf : f < nfa.states.length
      · have : nfa.states.getD f [] = nfa.states[f] := by
          simp [List.getD_eq_getElem?_getD, List.getElem?_eq_getElem hf]
        rw [this] at he'
        exact hT _ (List.getElem_mem hf) e he'
      · rw [List.getD_eq_default _ _ (Nat.le_of_not_lt hf)] at he'
        exact absurd he' (List.not_mem_nil e)
    · rw [List.mem_singleton.1 he']
      exact ht

theorem Expr.toNFA_wf : ∀ (e : Expr), ∃ M, e.toNFA = some M ∧ WFE M := by
  intro e
  induction e with
  | char c =>
      refine ⟨⟨[[(some c, 1)], []], some 0, {1}⟩, toNFA_char_eq c, ?_⟩
      refine ⟨⟨0, rfl, by simp⟩, by simp, ⟨1, by simp⟩, by simp, ?_⟩
      intro l hl e he
      rcases List.mem_cons.1 hl with rfl | hl'
      · have : e = (some c, 1) := List.mem_singleton.1 he
        rw [this]
        simp
      · have : l = [] := List.mem_singleton.1 hl'
        subst this
        exact absurd he (List.not_mem_nil e)
  | and a b iha ihb =>
      obtain ⟨na, hna, wna⟩ := iha
      obtain ⟨nb, hnb, wnb⟩ := ihb
      obtain ⟨sa, hsa, hsalt⟩ := wna.1
      obtain ⟨sb, hsb, hsblt⟩ := wnb.1
      obtain ⟨M₂, hm₂, _, _, _, _, _, _, _⟩ :=
        merge_spec nfaFresh 0 na sa hsa hsalt wna.2.2.2.2 wna.2.2.2.1 (by simp [nfaFresh])
      obtain ⟨hex₂, hst₂, hac₂, hlen₂, hT₂⟩ :=
        merge_wf_full hm₂ nfaFresh_T (by simp [nfaFresh])
      obtain ⟨M₃, hm₃, _, _, _, _, _, _, _⟩ :=
        merge_spec M₂ (nfaFresh.states.length + na.states.length) nb sb hsb hsblt
          wnb.2.2.2.2 wnb.2.2.2.1 (by rw [hlen₂]; omega)
      obtain ⟨hex₃, hst₃, hac₃, hlen₃, hT₃⟩ :=
        merge_wf_full hm₃ hT₂ (by rw [hlen₂]; omega)
      have hmnot : M₂.states.length + nb.states.length ∉ M₃.accept := by
        rw [hac₃, hac₂]
        simp [nfaFresh]
      refine ⟨{ M₃ with accept := insert (M₂.states.length + nb.states.length) M₃.accept },
        ?_, ?_⟩
      · rw [toNFA_and_eq, hna]
        simp only []
        rw [hm₂]
        simp only []
        rw [hnb]
        simp only []
        rw [hm₃]
        simp only []
        exact NFA.addMatch_eq hmnot
      · refine ⟨⟨0, ?_, ?_⟩, ?_, ⟨M₂.states.length + nb.states.length, by simp⟩, ?_, ?_⟩
        · simp only []
          rw [hst₃, hst₂]
          rfl
        · simp only []
          omega
        · simp only []
          intro hemp
          have : M₃.states.length = 0 := by rw [hemp]; rfl
          omega
        · simp only []
          intro q hq
          rcases Finset.mem_insert.1 hq with rfl | hq'
          · omega
          · rw [hac₃, hac₂] at hq'
            simp [nfaFresh] at hq'
        · simp only []
          exact hT₃
  | or a b iha ihb =>
      obtain ⟨na, hna, wna⟩ := iha
      obtain ⟨nb, hnb, wnb⟩ := ihb
      obtain ⟨sa, hsa, hsalt⟩ := wna.1
      obtain ⟨sb, hsb, hsblt⟩ := wnb.1
      obtain ⟨M₂, hm₂, _, _, _, _, _, _, _⟩ :=
        merge_spec nfaFresh 0 na sa hsa hsalt wna.2.2.2.2 wna.2.2.2.1 (by simp [nfaFresh])
      obtain ⟨hex₂, hst₂, hac₂, hlen₂, hT₂⟩ :=
        merge_wf_full hm₂ nfaFresh_T (by simp [nfaFresh])
      obtain ⟨M₃, hm₃, _, _, _, _, _, _, _⟩ :=
        merge_spec M₂ 0 nb sb hsb hsblt wnb.2.2.2.2 wnb.2.2.2.1 (by rw [hlen₂]; omega)
      obtain ⟨hex₃, hst₃, hac₃, hlen₃, hT₃⟩ :=
        merge_wf_full hm₃ hT₂ (by rw [hlen₂]; omega)
      have hmnot1 : nfaFresh.states.length + na.states.length ∉ M₃.accept := by
        rw [hac₃, hac₂]
        simp [nfaFresh]
      have hmnot2 : M₂.states.length + nb.states.length
          ∉ insert (nfaFresh.states.length + na.states.length) M₃.accept := by
        rw [hac₃, hac₂]
        simp only [Finset.mem_insert]
        intro hor
        rcases hor with heq | hmem
        · rw [hlen₂] at heq
          simp [nfaFresh] at heq
          omega
        · simp [nfaFresh] at hmem
      refine ⟨{ M₃ with accept := insert (M₂.states.length + nb.states.length) (insert (nfaFresh.states.length + na.states.length) M₃.accept) }, ?_, ?_⟩
      · rw [toNFA_or_eq, hna]
        simp only []
        rw [hm₂]
        simp only []
        rw [hnb]
        simp only []
        rw [hm₃]
        simp only []
        rw [NFA.addMatch_eq hmnot1]
        simp only []
        exact NFA.addMatch_eq hmnot2
      · refine ⟨⟨0, ?_, ?_⟩, ?_, ⟨M₂.states.length + nb.states.length, by simp⟩, ?_, ?_⟩
        · simp only []
          rw [hst₃, hst₂]
          rfl
        · simp only []
          omega
        · simp only []
          intro hemp
          have : M₃.states.length = 0 := by rw [hemp]; rfl
          omega
        · simp only []
          intro q hq
          rcases Finset.mem_insert.1 hq with rfl | hq'
          · omega
          · rcases Finset.mem_insert.1 hq' with rfl | hq''
            · rw [hlen₃, hlen₂]
              simp [nfaFresh]
              omega
            · rw [hac₃, hac₂] at hq''
              simp [nfaFresh] at hq''
        · simp only []
          exact hT₃
  | maybe a iha =>
      obtain ⟨na, hna, wna⟩ := iha
      obtain ⟨sa, hsa, hsalt⟩ := wna.1
      obtain ⟨M₂, hm₂, _, _, _, _, _, _, _⟩ :=
        merge_spec nfaFresh 0 na sa hsa hsalt wna.2.2.2.2 wna.2.2.2.1 (by simp [nfaFresh])
      obtain ⟨hex₂, hst₂, hac₂, hlen₂, hT₂⟩ :=
        merge_wf_full hm₂ nfaFresh_T (by simp [nfaFresh])
      have hmnot : nfaFresh.states.length + na.states.length ∉ M₂.accept := by
        rw [hac₂]
        simp [nfaFresh]
      set M₃ : NFA := { M₂ with accept := insert (nfaFresh.states.length + na.states.length) M₂.accept } with hM₃
      have hT₃ : ∀ l ∈ M₃.states, ∀ e : NEdge, e ∈ l → e.2 < M₃.states.length := by
        rw [hM₃]
        exact hT₂
      have h0lt : 0 < M₃.states.length := by rw [hM₃]; simp only []; omega
      have hmlt : nfaFresh.states.length + na.states.length < M₃.states.length := by
        rw [hM₃]
        simp only []
        omega
      refine ⟨{ M₃ with states := M₃.states.set 0 (M₃.states.getD 0 [] ++ [(none, nfaFresh.states.length + na.states.length)]) }, ?_, ?_⟩
      · rw [toNFA_maybe_eq, hna]
        simp only []
        rw [hm₂]
        simp only []
        rw [NFA.addMatch_eq hmnot]
        simp only []
        exact NFA.addEdge_eq h0lt
      · refine ⟨⟨0, ?_, ?_⟩, ?_, ⟨nfaFresh.states.length + na.states.length, by
          rw [hM₃]; simp⟩, ?_, ?_⟩
        · simp only []
          rw [hst₂]
          rfl
        · simp only [List.length_set]
          exact h0lt
        · simp only []
          intro hemp
          have := congrArg List.length hemp
          simp only [List.length_set, List.length_nil] at this
          omega
        · simp only []
          intro q hq
          rw [List.length_set]
          simp only [Finset.mem_insert] at hq
          rcases hq with rfl | hq'
          · exact hmlt
          · rw [hac₂] at hq'
            simp [nfaFresh] at hq'
        · simp only [List.length_set]
          exact addEdge_T hT₃ hmlt
  | oneOrMore a iha =>
      obtain ⟨na, hna, wna⟩ := iha
      obtain ⟨sa, hsa, hsalt⟩ := wna.1
      obtain ⟨M₂, hm₂, _, _, _, _, _, _, _⟩ :=
        merge_spec nfaFresh 0 na sa hsa hsalt wna.2.2.2.2 wna.2.2.2.1 (by simp [nfaFresh])
      obtain ⟨hex₂, hst₂, hac₂, hlen₂, hT₂⟩ :=
        merge_wf_full hm₂ nfaFresh_T (by simp [nfaFresh])
      have hmnot : nfaFresh.states.length + na.states.length ∉ M₂.accept := by
        rw [hac₂]
        simp [nfaFresh]
      set M₃ : NFA := { M₂ with accept := insert (nfaFresh.states.length + na.states.length) M₂.accept } with hM₃
      have hT₃ : ∀ l ∈ M₃.states, ∀ e : NEdge, e ∈ l → e.2 < M₃.states.length := by
        rw [hM₃]
        exact hT₂
      have h0lt : 0 < M₃.states.length := by rw [hM₃]; simp only []; omega
      have hmlt : nfaFresh.states.length + na.states.length < M₃.states.length := by
        rw [hM₃]
        simp only []
        omega
      refine ⟨{ M₃ with states := M₃.states.set (nfaFresh.states.length + na.states.length) (M₃.states.getD (nfaFresh.states.length + na.states.length) [] ++ [(none, 0)]) }, ?_, ?_⟩
      · rw [toNFA_plus_eq, hna]
        simp only []
        rw [hm₂]
        simp only []
        rw [NFA.addMatch_eq hmnot]
        simp only []
        exact NFA.addEdge_eq hmlt
      · refine ⟨⟨0, ?_, ?_⟩, ?_, ⟨nfaFresh.states.length + na.states.length, by
          rw [hM₃]; simp⟩, ?_, ?_⟩
        · simp only []
          rw [hst₂]
          rfl
        · simp only [List.length_set]
          exact h0lt
        · simp only []
          intro hemp
          have := congrArg List.length hemp
          simp only [List.length_set, List.length_nil] at this
          omega
        · simp only []
          intro q hq
          rw [List.length_set]
          simp only [Finset.mem_insert] at hq
          rcases hq with rfl | hq'
          · exact hmlt
          · rw [hac₂] at hq'
            simp [nfaFresh] at hq'
        · simp only [List.length_set]
          exact addEdge_T hT₃ h0lt

/-- Path reachability in an NFA: `Reaches q w r` holds when some edge path
from `q` to `r` consumes exactly the byte string `w` (epsilon edges consume
nothing). -/
inductive NFA.Reaches (nfa : NFA) : Nat → List Nat → Nat → Prop
  | refl (q : Nat) : nfa.Reaches q [] q
  | eps {q q' r : Nat} {w : List Nat} :
      (none, q') ∈ nfa.states.getD q [] → nfa.Reaches q' w r → nfa.Reaches q w r
  | byte {q q' r b : Nat} {w : List Nat} :
      (some b, q') ∈ nfa.states.getD q [] → nfa.Reaches q' w r → nfa.Reaches q (b :: w) r

theorem NFA.Reaches.trans {nfa : NFA} {q p r : Nat} {w₁ w₂ : List Nat}
    (h₁ : nfa.Reaches q w₁ p) (h₂ : nfa.Reaches p w₂ r) :
    nfa.Reaches q (w₁ ++ w₂) r := by
  induction h₁ with
  | refl q => simpa using h₂
  | eps he _ ih => exact NFA.Reaches.eps he (ih h₂)
  | byte he _ ih => exact NFA.Reaches.byte he (ih h₂)

theorem NFA.mem_epsSuccs_iff (nfa : NFA) (q t : Nat) :
    t ∈ nfa.epsSuccs q ↔ (none, t) ∈ nfa.states.getD q [] := by
  unfold NFA.epsSuccs
  simp only [List.mem_toFinset, List.mem_filterMap]
  constructor
  · intro ⟨e, he, hfe⟩
    have h1 : e.1 = none := by
      by_cases h : e.1 = none
      · exact h
      · rw [if_neg h] at hfe; simp at hfe
    have h2 : e.2 = t := by
      rw [if_pos h1] at hfe; simpa using hfe
    have : e = (none, t) := by
      rcases e with ⟨l, u⟩
      simp only at h1 h2
      rw [h1, h2]
    exact this ▸ he
  · intro hmem
    exact ⟨(none, t), hmem, by simp⟩

theorem NFA.mem_byteSuccs_iff (nfa : NFA) (q c t : Nat) :
    t ∈ nfa.byteSuccs q c ↔ (some c, t) ∈ nfa.states.getD q [] := by
  unfold NFA.byteSuccs
  simp only [List.mem_toFinset, List.mem_filterMap]
  constructor
  · intro ⟨e, he, hfe⟩
    have h1 : e.1 = some c := by
      by_cases h : e.1 = some c
      · exact h
      · rw [if_neg h] at hfe; simp at hfe
    have h2 : e.2 = t := by
      rw [if_pos h1] at hfe; simpa using hfe
    have : e = (some c, t) := by
      rcases e with ⟨l, u⟩
      simp only at h1 h2
      rw [h1, h2]
    exact this ▸ he
  · intro hmem
    exact ⟨(some c, t), hmem, by simp⟩

theorem NFA.mem_targetsOf_iff (nfa : NFA) (cur : Finset Nat) (c t : Nat) :
    t ∈ nfa.targetsOf cur c ↔ ∃ p ∈ cur, (some c, t) ∈ nfa.states.getD p [] := by
  unfold NFA.targetsOf
  rw [Finset.mem_biUnion]
  constructor
  · intro ⟨p, hp, ht⟩
    exact ⟨p, hp, (nfa.mem_byteSuccs_iff p c t).1 ht⟩
  · intro ⟨p, hp, ht⟩
    exact ⟨p, hp, (nfa.mem_byteSuccs_iff p c t).2 ht⟩

theorem NFA.mem_cloSet_iff (nfa : NFA) (S : Finset Nat) (q : Nat) :
    q ∈ nfa.cloSet S ↔ ∃ s ∈ S, nfa.Reaches s [] q := by
  constructor
  · intro hq
    have hgen : ∀ (k : Nat) (x : Nat), x ∈ nfa.epsStep^[k] S →
        ∃ s ∈ S, nfa.Reaches s [] x := by
      intro k
      induction k with
      | zero => intro x hx; exact ⟨x, by simpa using hx, NFA.Reaches.refl x⟩
      | succ k ih =>
          intro x hx
          rw [Function.iterate_succ_apply'] at hx
          rcases Finset.mem_union.1 hx with hx' | hx'
          · exact ih x hx'
          · rcases Finset.mem_biUnion.1 hx' with ⟨p, hp, hxp⟩
            rcases ih p hp with ⟨s, hs, hr⟩
            exact ⟨s, hs, hr.trans (NFA.Reaches.eps
              ((nfa.mem_epsSuccs_iff p x).1 hxp) (NFA.Reaches.refl x))⟩
    exact hgen _ q hq
  · intro ⟨s, hs, hr⟩
    have hgen : ∀ {p w x}, nfa.Reaches p w x → w = [] →
        p ∈ nfa.cloSet S → x ∈ nfa.cloSet S := by
      intro p w x hr
      induction hr with
      | refl q => intro _ h; exact h
      | eps he _ ih =>
          intro hw hp
          refine ih hw ?_
          exact nfa.epsClosed_cloSet S _ hp ((nfa.mem_epsSuccs_iff _ _).2 he)
      | byte he _ ih => intro hw; exact absurd hw (List.cons_ne_nil _ _)
    exact hgen hr rfl (nfa.subset_cloSet S hs)

theorem NFA.reaches_cons_iff (nfa : NFA) (s b : Nat) (w : List Nat) (q : Nat) :
    nfa.Reaches s (b :: w) q ↔
      ∃ p t, nfa.Reaches s [] p ∧ (some b, t) ∈ nfa.states.getD p [] ∧
        nfa.Reaches t w q := by
  constructor
  · intro hr
    have hgen : ∀ {s w₀ q}, nfa.Reaches s w₀ q → ∀ {b w}, w₀ = b :: w →
        ∃ p t, nfa.Reaches s [] p ∧ (some b, t) ∈ nfa.states.getD p [] ∧
          nfa.Reaches t w q := by
      intro s w₀ q hr
      induction hr with
      | refl q => intro b w hw; exact absurd hw.symm (List.cons_ne_nil _ _)
      | eps he _ ih =>
          intro b w hw
          rcases ih hw with ⟨p, t, h1, h2, h3⟩
          exact ⟨p, t, NFA.Reaches.eps he h1, h2, h3⟩
      | byte he hr2 ih =>
          intro b w hw
          rcases List.cons.injEq _ _ _ _ ▸ hw with ⟨rfl, rfl⟩
          · exact ⟨_, _, NFA.Reaches.refl _, he, hr2⟩
    exact hgen hr rfl
  · intro ⟨p, t, h1, h2, h3⟩
    have : nfa.Reaches p (b :: w) q := NFA.Reaches.byte h2 h3
    simpa using h1.trans this

theorem NFA.mem_simSets_iff (nfa : NFA) :
    ∀ (w : List Nat) (S : Finset Nat) (q : Nat),
      q ∈ w.foldl (fun cur c => nfa.cloSet (nfa.targetsOf cur c)) (nfa.cloSet S)
      ↔ ∃ s ∈ S, nfa.Reaches s w q := by
  intro w
  induction w with
  | nil =>
      intro S q
      simpa using nfa.mem_cloSet_iff S q
  | cons b w ih =>
      intro S q
      rw [List.foldl_cons]
      rw [ih (nfa.targetsOf (nfa.cloSet S) b) q]
      constructor
      · intro ⟨t, ht, hr⟩
        rcases (nfa.mem_targetsOf_iff _ b t).1 ht with ⟨p, hp, hedge⟩
        rcases (nfa.mem_cloSet_iff S p).1 hp with ⟨s, hs, hsp⟩
        exact ⟨s, hs, (nfa.reaches_cons_iff s b w q).2 ⟨p, t, hsp, hedge, hr⟩⟩
      · intro ⟨s, hs, hr⟩
        rcases (nfa.reaches_cons_iff s b w q).1 hr with ⟨p, t, hsp, hedge, htq⟩
        refine ⟨t, ?_, htq⟩
        exact (nfa.mem_targetsOf_iff _ b t).2
          ⟨p, (nfa.mem_cloSet_iff S p).2 ⟨s, hs, hsp⟩, hedge⟩

theorem NFA.simulateSpec_iff_reaches (nfa : NFA) {s : Nat} (hstart : nfa.start = some s)
    (w : List Nat) :
    nfa.simulateSpec w = true ↔ ∃ f ∈ nfa.accept, nfa.Reaches s w f := by
  unfold NFA.simulateSpec
  rw [hstart]
  simp only [decide_eq_true_eq]
  constructor
  · intro ⟨q, hq, hqa⟩
    rcases (nfa.mem_simSets_iff w {s} q).1 hq with ⟨s', hs', hr⟩
    rw [Finset.mem_singleton.1 hs'] at hr
    exact ⟨q, hqa, hr⟩
  · intro ⟨f, hfa, hr⟩
    exact ⟨f, (nfa.mem_simSets_iff w {s} f).2 ⟨s, Finset.mem_singleton_self s, hr⟩, hfa⟩

/-- Shape of the `oneOrMore` automaton: one fresh start with an epsilon
edge into the copied operand, the operand's states shifted by one, each
operand accept state wired to the single accepting exit, and the exit
looping back to the start by an epsilon edge. -/
theorem toNFA_plus_spec (a : Expr) {A : NFA} (hA : a.toNFA = some A) (hwf : WFE A) :
    ∃ M s0, A.start = some s0 ∧ s0 < A.states.length ∧
      (Expr.oneOrMore a).toNFA = some M ∧
      M.states.length = A.states.length + 2 ∧
      M.start = some 0 ∧
      M.accept = {1 + A.states.length} ∧
      M.states.getD 0 [] = [(none, 1 + s0)] ∧
      (∀ i, i < A.states.length → M.states.getD (1 + i) []
        = shiftEdges 1 (A.states.getD i [])
          ++ (if i ∈ A.accept then [(none, 1 + A.states.length)] else [])) ∧
      M.states.getD (1 + A.states.length) [] = [(none, 0)] := by
  obtain ⟨s0, hs0, hs0lt⟩ := hwf.1
  obtain ⟨M₂, hm₂, hst₂, hac₂, hlen₂, hun₂, href₂, hcopy₂, hexit₂⟩ :=
    merge_spec nfaFresh 0 A s0 hs0 hs0lt hwf.2.2.2.2 hwf.2.2.2.1 (by simp [nfaFresh])
  have e1 : nfaFresh.states.length = 1 := rfl
  have e2 : nfaFresh.states.getD 0 [] = ([] : List NEdge) := rfl
  simp only [e1, e2, List.nil_append] at hm₂ hst₂ hac₂ hlen₂ href₂ hcopy₂ hexit₂
  have hmnot : 1 + A.states.length ∉ M₂.accept := by
    rw [hac₂]
    simp [nfaFresh]
  set M₃ : NFA := { M₂ with accept := insert (1 + A.states.length) M₂.accept } with hM₃
  have hlen₃ : M₃.states.length = 1 + A.states.length + 1 := by rw [hM₃]; exact hlen₂
  have hmlt : 1 + A.states.length < M₃.states.length := by omega
  refine ⟨{ M₃ with states := M₃.states.set (1 + A.states.length) (M₃.states.getD (1 + A.states.length) [] ++ [(none, 0)]) }, s0, hs0, hs0lt, ?_, ?_, ?_, ?_, ?_, ?_, ?_⟩
  · rw [toNFA_plus_eq, hA]
    simp only []
    rw [hm₂]
    simp only []
    rw [NFA.addMatch_eq hmnot]
    simp only []
    exact NFA.addEdge_eq hmlt
  · simp only [List.length_set]
    omega
  · simp only []
    rw [hst₂]
    rfl
  · simp only []
    rw [hac₂]
    simp [nfaFresh]
  · simp only []
    rw [List.getD_eq_getElem?_getD, List.getElem?_set_ne (by omega),
      ← List.getD_eq_getElem?_getD]
    exact href₂
  · intro i hi
    simp only []
    rw [List.getD_eq_getElem?_getD, List.getElem?_set_ne (by omega),
      ← List.getD_eq_getElem?_getD]
    exact hcopy₂ i hi
  · simp only []
    have hmlt2 : 1 + A.states.length < M₂.states.length := by omega
    have hself : (M₂.states.set (1 + A.states.length)
        (M₂.states.getD (1 + A.states.length) [] ++ [(none, 0)])).getD
          (1 + A.states.length) []
        = M₂.states.getD (1 + A.states.length) [] ++ [(none, 0)] := by
      simp [List.getD_eq_getElem?_getD, List.getElem?_set_self', hmlt2]
    rw [hself, hexit₂]
    rfl

/-- Acceptance of a word along paths from a given state. -/
def NFA.AcceptsFrom (A : NFA) (s0 : Nat) (w : List Nat) : Prop :=
  ∃ f ∈ A.accept, A.Reaches s0 w f

/-- The Kleene plus of a language: a nonempty concatenation of members. -/
def PlusLang (P : List Nat → Prop) (w : List Nat) : Prop :=
  ∃ parts : List (List Nat), parts ≠ [] ∧ w = parts.flatten ∧ ∀ p ∈ parts, P p

/-- Paths of the operand embed, shifted by one, into the plus automaton. -/
theorem plus_embed {A M : NFA}
    (hT : ∀ l ∈ A.states, ∀ e : NEdge, e ∈ l → e.2 < A.states.length)
    (hcopy : ∀ i, i < A.states.length → M.states.getD (1 + i) []
      = shiftEdges 1 (A.states.getD i [])
        ++ (if i ∈ A.accept then [(none, 1 + A.states.length)] else [])) :
    ∀ {q w r}, A.Reaches q w r → q < A.states.length →
      M.Reaches (1 + q) w (1 + r) := by
  intro q w r h
  induction h with
  | refl q => intro _; exact NFA.Reaches.refl _
  | @eps q q' r w he _ ih =>
      intro hq
      have hgd : A.states.getD q [] = A.states[q] := by
        simp [List.getD_eq_getElem?_getD, List.getElem?_eq_getElem hq]
      have hq' : q' < A.states.length := by
        rw [hgd] at he
        exact hT _ (List.getElem_mem hq) _ he
      refine NFA.Reaches.eps ?_ (ih hq')
      rw [hcopy q hq]
      exact List.mem_append_left _ (List.mem_map.2 ⟨(none, q'), he, rfl⟩)
  | @byte q q' r b w he _ ih =>
      intro hq
      have hgd : A.states.getD q [] = A.states[q] := by
        simp [List.getD_eq_getElem?_getD, List.getElem?_eq_getElem hq]
      have hq' : q' < A.states.length := by
        rw [hgd] at he
        exact hT _ (List.getElem_mem hq) _ he
      refine NFA.Reaches.byte ?_ (ih hq')
      rw [hcopy q hq]
      exact List.mem_append_left _ (List.mem_map.2 ⟨(some b, q'), he, rfl⟩)

/-- Composition: a nonempty list of operand-accepted segments yields a
path of the plus automaton from its start to its accepting exit. -/
theorem plus_compose {A M : NFA} {s0 : Nat}
    (hs0lt : s0 < A.states.length)
    (hT : ∀ l ∈ A.states, ∀ e : NEdge, e ∈ l → e.2 < A.states.length)
    (hacc : ∀ q ∈ A.accept, q < A.states.length)
    (h0 : M.states.getD 0 [] = [(none, 1 + s0)])
    (hcopy : ∀ i, i < A.states.length → M.states.getD (1 + i) []
      = shiftEdges 1 (A.states.getD i [])
        ++ (if i ∈ A.accept then [(none, 1 + A.states.length)] else []))
    (hloop : M.states.getD (1 + A.states.length) [] = [(none, 0)]) :
    ∀ parts : List (List Nat), parts ≠ [] →
      (∀ p ∈ parts, A.AcceptsFrom s0 p) →
      M.Reaches 0 parts.flatten (1 + A.states.length) := by
  intro parts
  induction parts with
  | nil => intro h; exact absurd rfl h
  | cons p parts ih =>
      intro _ hall
      obtain ⟨f, hf, hreach⟩ := hall p (List.mem_cons_self _ _)
      have hflt : f < A.states.length := hacc f hf
      have h1 : M.Reaches (1 + s0) p (1 + f) := plus_embed hT hcopy hreach hs0lt
      have h2 : M.Reaches 0 p (1 + f) :=
        NFA.Reaches.eps (by rw [h0]; exact List.mem_singleton_self _) h1
      have h3 : M.Reaches (1 + f) [] (1 + A.states.length) := by
        refine NFA.Reaches.eps ?_ (NFA.Reaches.refl _)
        rw [hcopy f hflt, if_pos hf]
        exact List.mem_append_right _ (List.mem_singleton_self _)
      have hseg : M.Reaches 0 p (1 + A.states.length) := by
        simpa using h2.trans h3
      rcases eq_or_ne parts [] with rfl | hne
      · simpa using hseg
      · have htail : M.Reaches (1 + A.states.length) parts.flatten (1 + A.states.length) :=
          NFA.Reaches.eps (by rw [hloop]; exact List.mem_singleton_self _)
            (ih hne (fun p' hp' => hall p' (List.mem_cons_of_mem _ hp')))
        simpa using hseg.trans htail

/-- Decomposition: any path of the plus automaton ending at its accepting
exit splits into operand-accepted segments, with a per-state-class
invariant over the whole path. -/
theorem plus_decompose {A M : NFA} {s0 : Nat}
    (hs0lt : s0 < A.states.length)
    (hT : ∀ l ∈ A.states, ∀ e : NEdge, e ∈ l → e.2 < A.states.length)
    (h0 : M.states.getD 0 [] = [(none, 1 + s0)])
    (hcopy : ∀ i, i < A.states.length → M.states.getD (1 + i) []
      = shiftEdges 1 (A.states.getD i [])
        ++ (if i ∈ A.accept then [(none, 1 + A.states.length)] else []))
    (hloop : M.states.getD (1 + A.states.length) [] = [(none, 0)]) :
    ∀ {u w r}, M.Reaches u w r → r = 1 + A.states.length →
      ((u = 0 → PlusLang (A.AcceptsFrom s0) w) ∧
       (∀ q, q < A.states.length → u = 1 + q →
          ∃ w1 w2 f, w = w1 ++ w2 ∧ f ∈ A.accept ∧ A.Reaches q w1 f ∧
            (w2 = [] ∨ PlusLang (A.AcceptsFrom s0) w2)) ∧
       (u = 1 + A.states.length → w = [] ∨ PlusLang (A.AcceptsFrom s0) w)) := by
  intro u w r h
  induction h with
  | refl q =>
      intro hr
      refine ⟨?_, ?_, ?_⟩
      · intro hu; omega
      · intro q' hq' hu; omega
      · intro _; exact Or.inl rfl
  | @eps q q' r w he _ ih =>
      intro hr
      have IH := ih hr
      refine ⟨?_, ?_, ?_⟩
      · intro hu
        rw [hu, h0] at he
        have hq' : q' = 1 + s0 := by
          simpa [Prod.ext_iff] using List.mem_singleton.1 he
        rw [hq'] at IH
        obtain ⟨w1, w2, f, hw, hf, hreach, hrest2⟩ := IH.2.1 s0 hs0lt rfl
        rcases hrest2 with rfl | ⟨parts2, hne2, hj2, hall2⟩
        · refine ⟨[w1], List.cons_ne_nil _ _, by simp [hw], ?_⟩
          intro p hp
          rw [List.mem_singleton.1 hp]
          exact ⟨f, hf, hreach⟩
        · refine ⟨w1 :: parts2, List.cons_ne_nil _ _, by simp [hw, hj2], ?_⟩
          intro p hp
          rcases List.mem_cons.1 hp with rfl | hp'
          · exact ⟨f, hf, hreach⟩
          · exact hall2 p hp'
      · intro q0 hq0 hu
        rw [hu, hcopy q0 hq0] at he
        rcases List.mem_append.1 he with he' | he'
        · obtain ⟨e, hemem, heq⟩ := List.mem_map.1 he'
          rcases e with ⟨el, et⟩
          simp only [Prod.mk.injEq] at heq
          obtain ⟨h1, h2⟩ := heq
          have hgd : A.states.getD q0 [] = A.states[q0] := by
            simp [List.getD_eq_getElem?_getD, List.getElem?_eq_getElem hq0]
          have hetlt : et < A.states.length := by
            rw [hgd] at hemem
            exact hT _ (List.getElem_mem hq0) _ hemem
          obtain ⟨w1, w2, f, hw, hf, hreach, hrest2⟩ := IH.2.1 et hetlt h2.symm
          subst h1
          exact ⟨w1, w2, f, hw, hf, NFA.Reaches.eps hemem hreach, hrest2⟩
        · by_cases hqa : q0 ∈ A.accept
          · rw [if_pos hqa] at he'
            have hq' : q' = 1 + A.states.length := by
              simpa [Prod.ext_iff] using List.mem_singleton.1 he'
            have := IH.2.2 hq'
            exact ⟨[], w, q0, (List.nil_append w).symm, hqa, NFA.Reaches.refl q0, this⟩
          · rw [if_neg hqa] at he'
            exact absurd he' (List.not_mem_nil _)
      · intro hu
        rw [hu, hloop] at he
        have hq' : q' = 0 := by
          simpa [Prod.ext_iff] using List.mem_singleton.1 he
        exact Or.inr (IH.1 hq')
  | @byte q q' r b w he _ ih =>
      intro hr
      have IH := ih hr
      refine ⟨?_, ?_, ?_⟩
      · intro hu
        rw [hu, h0] at he
        have : (some b, q') = ((none, 1 + s0) : NEdge) := List.mem_singleton.1 he
        simp [Prod.ext_iff] at this
      · intro q0 hq0 hu
        rw [hu, hcopy q0 hq0] at he
        rcases List.mem_append.1 he with he' | he'
        · obtain ⟨e, hemem, heq⟩ := List.mem_map.1 he'
          rcases e with ⟨el, et⟩
          simp only [Prod.mk.injEq] at heq
          obtain ⟨h1, h2⟩ := heq
          have hgd : A.states.getD q0 [] = A.states[q0] := by
            simp [List.getD_eq_getElem?_getD, List.getElem?_eq_getElem hq0]
          have hetlt : et < A.states.length := by
            rw [hgd] at hemem
            exact hT _ (List.getElem_mem hq0) _ hemem
          obtain ⟨w1, w2, f, hw, hf, hreach, hrest2⟩ := IH.2.1 et hetlt h2.symm
          subst h1
          exact ⟨b :: w1, w2, f, by rw [hw]; rfl, hf,
            NFA.Reaches.byte hemem hreach, hrest2⟩
        · by_cases hqa : q0 ∈ A.accept
          · rw [if_pos hqa] at he'
            have : (some b, q') = ((none, 1 + A.states.length) : NEdge) :=
              List.mem_singleton.1 he'
            simp [Prod.ext_iff] at this
          · rw [if_neg hqa] at he'
            exact absurd he' (List.not_mem_nil _)
      · intro hu
        rw [hu, hloop] at he
        have : (some b, q') = ((none, 0) : NEdge) := List.mem_singleton.1 he
        simp [Prod.ext_iff] at this

/-- `testMatch` agrees with path acceptance on well-formed NFAs. -/
theorem NFA.testMatch_iff_acceptsFrom (A : NFA) (hwf : A.WF) {s0 : Nat}
    (hs0 : A.start = some s0) (w : List Nat) :
    A.testMatch w = some true ↔ A.AcceptsFrom s0 w := by
  rw [A.testMatch_eq_simulateSpec hwf w]
  rw [Option.some_inj]
  rw [A.simulateSpec_iff_reaches hs0 w]
  unfold NFA.AcceptsFrom
  rfl

/-- Entries of a pairwise-key-distinct cache agree on values whenever they
agree on keys. -/
theorem pairwiseKeyUnique {cache : List (Finset Nat × Nat)}
    (hpw : cache.Pairwise (fun p q => p.1 ≠ q.1)) :
    ∀ p ∈ cache, ∀ q ∈ cache, p.1 = q.1 → p.2 = q.2 := by
  induction cache with
  | nil => intro p hp; exact absurd hp (List.not_mem_nil p)
  | cons e l ih =>
      intro p hp q hq heq
      rcases List.mem_cons.1 hp with rfl | hp'
      · rcases List.mem_cons.1 hq with rfl | hq'
        · rfl
        · exact absurd heq ((List.pairwise_cons.1 hpw).1 q hq')
      · rcases List.mem_cons.1 hq with rfl | hq'
        · exact absurd heq.symm ((List.pairwise_cons.1 hpw).1 p hp')
        · exact ih (List.pairwise_cons.1 hpw).2 p hp' q hq' heq

/-- The regular expression `'a'` as an NFA: one byte edge into the single
accepting state. -/
def nfaChar : NFA := ⟨[[(some 97, 1)], []], some 0, {1}⟩

/-- The DFA `NFA.lower` builds from `nfaChar`. -/
def dfaChar : DFA := ⟨[[(97, 1)], []], some 0, {1}⟩

/-- The DFA state and cache `NFA.lowerRec` returns on `nfaChar` before the
start is set. -/
def dfaCharL : DFA := ⟨[[(97, 1)], []], none, {1}⟩

/-- An NFA whose start closure `{0, 1, 2}` holds two accepting states. -/
def nfaC2x : NFA := ⟨[[(none, 1), (none, 2)], [], []], some 0, {1, 2}⟩

/-- A two-state epsilon cycle. -/
def nfaCyc : NFA := ⟨[[(none, 1)], [(none, 0)]], some 0, {0}⟩

/-- A well-formed NFA whose accepting state is unreachable. -/
def nfaDead : NFA := ⟨[[], []], some 0, {1}⟩

/-- The DFA `NFA.lower` builds from `nfaDead`: its accept set is empty. -/
def dfaDead : DFA := ⟨[[]], some 0, ∅⟩

/-- A DFA with an edge labelled by the single-quote byte 39. -/
def dfaQuote : DFA := ⟨[[(39, 1)], []], some 0, {1}⟩

/-- The NFA `(Expr.oneOrMore (Expr.char 97)).toNFA` builds. -/
def nfaPlusChar : NFA :=
  ⟨[[(none, 1)], [(some 97, 2)], [(none, 3)], [(none, 0)]], some 0, {3}⟩

/-- The NFA `merge nfaFresh 0 nfaChar` returns (the exit state is 3). -/
def mergedChar : NFA :=
  ⟨[[(none, 1)], [(some 97, 2)], [(none, 3)], []], some 0, ∅⟩

/-- C1: Backend agreement holds only under extra hypotheses the spec omits:
`lower` must succeed, the lowered DFA's accept set must be nonempty, and
every edge byte must survive the raw-literal emission.  Under those, the
NFA interpreter, the lowered DFA interpreter and the jitted code all
compute the reference subset simulation. -/
theorem C1_backend_agreement (nfa : NFA) (dfa : DFA) (hwf : nfa.WF)
    (hlow : nfa.lower = some dfa) (hacc : dfa.accept.Nonempty)
    (hjit : dfa.jitCompiles = true) (w : List Nat) :
    nfa.testMatch w = some (nfa.simulateSpec w) ∧
    dfa.testMatch w = some (nfa.simulateSpec w) ∧
    dfa.jitMatch w = some (nfa.simulateSpec w) := by
  refine ⟨nfa.testMatch_eq_simulateSpec hwf w, nfa.lower_testMatch hlow hacc w, ?_⟩
  rw [nfa.lower_jitMatch hlow hacc hjit w]
  exact nfa.lower_testMatch hlow hacc w

theorem C1_backend_agreement_witness :
    nfaChar.testMatch [97] = some (nfaChar.simulateSpec [97]) ∧
    dfaChar.testMatch [97] = some (nfaChar.simulateSpec [97]) ∧
    dfaChar.jitMatch [97] = some (nfaChar.simulateSpec [97]) :=
  C1_backend_agreement nfaChar dfaChar
    ⟨by decide, ⟨0, rfl, by decide⟩, by decide, by decide⟩
    (by decide) (by decide) (by decide) [97]

/-- A well-formed NFA with an unreachable accepting state refutes the
unconditional claim: the NFA interpreter answers `false` on the empty
word, but the lowered DFA's accept set is empty, so `DFA::testMatch` hits
its accept-set assertion instead of returning a boolean. -/
theorem C1_backend_agreement_counterexample :
    nfaDead.states ≠ [] ∧ nfaDead.start = some 0 ∧
    0 < nfaDead.states.length ∧ nfaDead.accept.Nonempty ∧
    (∀ l ∈ nfaDead.states, ∀ e : NEdge, e ∈ l → e.2 < nfaDead.states.length) ∧
    nfaDead.testMatch [] = some false ∧
    nfaDead.lower = some dfaDead ∧
    dfaDead.testMatch [] = none := by decide

/-- C2: The claim fails in the code: `NFA::lower` calls `dfa.addMatch`
once per accepting member of a closure set, and `FABase::addMatch` asserts
the insert is fresh, so a closure set holding two accepting NFA states
aborts the subset construction.  `nfaC2x` is well formed, its interpreter
accepts the empty word, yet `lower` aborts. -/
theorem C2_lower_double_accept_aborts :
    nfaC2x.states ≠ [] ∧ nfaC2x.start = some 0 ∧
    0 < nfaC2x.states.length ∧ nfaC2x.accept.Nonempty ∧
    (∀ l ∈ nfaC2x.states, ∀ e : NEdge, e ∈ l → e.2 < nfaC2x.states.length) ∧
    nfaC2x.testMatch [] = some true ∧
    nfaC2x.lower = none := by decide

/-- C3: On every well-formed NFA, `NFA::testMatch` returns exactly the
reference subset simulation: close the start, per byte take the closure of
the labelled targets, accept iff the final set meets the accept set (an
empty current set just runs on to `false`). -/
theorem C3_nfa_simulation (nfa : NFA) (hwf : nfa.WF) (w : List Nat) :
    nfa.testMatch w = some (nfa.simulateSpec w) :=
  nfa.testMatch_eq_simulateSpec hwf w

theorem C3_nfa_simulation_witness :
    nfaChar.testMatch [97] = some (nfaChar.simulateSpec [97]) ∧
    nfaChar.simulateSpec [97] = true :=
  ⟨C3_nfa_simulation nfaChar ⟨by decide, ⟨0, rfl, by decide⟩, by decide, by decide⟩
    [97], by decide⟩

/-- C4: Any successful run of the subset construction keeps the cache a
function on closure sets compared by set equality: keys are pairwise
distinct `Finset`s (so no two DFA states are created for one closure set),
entries with equal key sets carry equal DFA states, and lookup retrieves
every entry from its key set alone. -/
theorem C4_cache_canonical (nfa : NFA) (fuel : Nat) (S : Finset Nat)
    (dfa : DFA) (cache : List (Finset Nat × Nat)) (s2 : Nat) (dfa2 : DFA)
    (cache2 : List (Finset Nat × Nat))
    (h : nfa.lowerRec fuel S dfa cache = some (s2, dfa2, cache2))
    (hinv : CacheInv nfa dfa cache) :
    cache2.Pairwise (fun p q => p.1 ≠ q.1) ∧
    (∀ p ∈ cache2, ∀ q ∈ cache2, p.1 = q.1 → p.2 = q.2) ∧
    (∀ p ∈ cache2, cacheFind cache2 p.1 = some p.2) := by
  obtain ⟨hinv2, _, _, _, _, _, _, _, _⟩ :=
    nfa.lowerRec_spec _ _ _ _ _ _ _ h hinv
  refine ⟨hinv2.2.1, pairwiseKeyUnique hinv2.2.1, ?_⟩
  intro p hp
  rcases p with ⟨k, t⟩
  exact cacheFind_of_mem_distinct hinv2.2.1 hp

theorem C4_cache_canonical_witness :
    cacheFind [(({1} : Finset Nat), 1), ({0}, 0)] {0} = some 0 :=
  (C4_cache_canonical nfaChar 5 {0} ⟨[], none, ∅⟩ [] 0 dfaCharL
    [({1}, 1), ({0}, 0)] (by decide)
    ⟨fun p hp => absurd hp (List.not_mem_nil p), List.Pairwise.nil,
      fun p hp => absurd hp (List.not_mem_nil p),
      fun q hq => absurd hq (Finset.not_mem_empty q)⟩).2.2 ({0}, 0) (by decide)

/-- C5: The `oneOrMore` combinator builds an automaton for the Kleene plus
of its operand's language: the built NFA's `testMatch` accepts `w` exactly
when `w` splits into one or more segments each accepted by the operand's
automaton. -/
theorem C5_plus_language (a : Expr) (A M : NFA)
    (hA : a.toNFA = some A) (hM : (Expr.oneOrMore a).toNFA = some M)
    (w : List Nat) :
    (M.testMatch w = some true ↔
      PlusLang (fun p => A.testMatch p = some true) w) := by
  obtain ⟨A2, hA2, wfA⟩ := Expr.toNFA_wf a
  rw [hA] at hA2
  obtain rfl := Option.some.inj hA2
  obtain ⟨M3, hM3, wfM⟩ := Expr.toNFA_wf (Expr.oneOrMore a)
  rw [hM] at hM3
  obtain rfl := Option.some.inj hM3
  obtain ⟨M2, s0, hs0, hs0lt, hM2, hlenM, hstartM, haccM, h0, hcopy, hloop⟩ :=
    toNFA_plus_spec a hA wfA
  rw [hM] at hM2
  obtain rfl := Option.some.inj hM2
  rw [M.testMatch_iff_acceptsFrom wfM.toWF hstartM w]
  have hMacc : M.AcceptsFrom 0 w ↔ M.Reaches 0 w (1 + A.states.length) := by
    unfold NFA.AcceptsFrom
    rw [haccM]
    constructor
    · rintro ⟨f, hf, hr⟩
      rwa [Finset.mem_singleton.1 hf] at hr
    · intro hr
      exact ⟨_, Finset.mem_singleton_self _, hr⟩
  rw [hMacc]
  have hPL : M.Reaches 0 w (1 + A.states.length) ↔
      PlusLang (A.AcceptsFrom s0) w := by
    constructor
    · intro hr
      exact (plus_decompose hs0lt wfA.2.2.2.2 h0 hcopy hloop hr rfl).1 rfl
    · rintro ⟨parts, hne, rfl, hall⟩
      exact plus_compose hs0lt wfA.2.2.2.2 wfA.2.2.2.1 h0 hcopy hloop parts hne hall
  rw [hPL]
  unfold PlusLang
  constructor
  · rintro ⟨parts, hne, hw, hall⟩
    exact ⟨parts, hne, hw, fun p hp =>
      (A.testMatch_iff_acceptsFrom wfA.toWF hs0 p).2 (hall p hp)⟩
  · rintro ⟨parts, hne, hw, hall⟩
    exact ⟨parts, hne, hw, fun p hp =>
      (A.testMatch_iff_acceptsFrom wfA.toWF hs0 p).1 (hall p hp)⟩

theorem C5_plus_language_witness :
    nfaPlusChar.testMatch [97, 97] = some true :=
  (C5_plus_language (Expr.char 97) nfaChar nfaPlusChar (by decide) (by decide)
    [97, 97]).mpr ⟨[[97], [97]], by decide, rfl, by decide⟩

/-- C6: On every well-formed DFA, `DFA::testMatch` walks the unique edge
per byte from the start, answers `false` at the first missing edge, and
otherwise accepts iff the final state is accepting. -/
theorem C6_dfa_simulation (dfa : DFA) (hwf : dfa.WF) (w : List Nat) :
    dfa.testMatch w = some (dfa.simulateSpec w) :=
  dfa.testMatch_eq_simulateSpecD hwf w

theorem C6_dfa_simulation_witness :
    dfaChar.testMatch [97] = some (dfaChar.simulateSpec [97]) ∧
    dfaChar.simulateSpec [97] = true :=
  ⟨C6_dfa_simulation dfaChar ⟨by decide, ⟨0, rfl, by decide⟩, by decide, by decide⟩
    [97], by decide⟩

/-- C7: Epsilon closure is idempotent at the implementation:
whenever `FollowEpsilons` succeeds on `S` — including on cyclic epsilon
graphs, where only the visited marking stops the walk — running it again
on the result returns the result unchanged. -/
theorem C7_closure_idempotent (nfa : NFA) (S T : Finset Nat)
    (h : nfa.followEpsilons S = some T) :
    nfa.followEpsilons T = some T := by
  obtain ⟨hT, hrange⟩ := nfa.followEpsilons_sound h
  subst hT
  have h2 : ∀ q ∈ nfa.cloSet (nfa.cloSet S), q < nfa.states.length := by
    intro q hq
    rw [nfa.cloSet_idem] at hq
    exact hrange q hq
  have hres := nfa.followEpsilons_isSome h2
  rw [nfa.cloSet_idem] at hres
  exact hres

theorem C7_closure_idempotent_witness :
    nfaCyc.followEpsilons {1, 0} = some {1, 0} :=
  C7_closure_idempotent nfaCyc {0} {1, 0} rfl

set_option maxRecDepth 8192 in
/-- C8: The emitter writes the raw edge byte between the quotes, which is
a correct C character literal only for printable ASCII other than the
quote and the backslash; for every byte the raw emission is valid exactly
on that subset. -/
theorem C8_jit_literal (b : Nat) (hb : b < 256) :
    charLitRepresents (jitLitBytes b) b
      = ((decide (32 ≤ b) && decide (b ≤ 126)) && !(b == 39) && !(b == 92)) := by
  revert hb
  revert b
  decide

theorem C8_jit_literal_witness :
    charLitRepresents (jitLitBytes 97) 97
      = ((decide (32 ≤ 97) && decide (97 ≤ 126)) && !(97 == 39) && !(97 == 92)) :=
  C8_jit_literal 97 (by decide)

/-- The single-quote byte 39 and the newline byte 10 refute totality: the
raw emission denotes no C literal (escapes would), so a DFA with a
39-labelled edge matches under `DFA::testMatch` but its jitted form does
not build. -/
theorem C8_jit_literal_counterexample :
    charLitRepresents (jitLitBytes 39) 39 = false ∧
    charLitRepresents [92, 39] 39 = true ∧
    charLitRepresents (jitLitBytes 10) 10 = false ∧
    charLitRepresents [92, 110] 10 = true ∧
    charLitRepresents [92, 120, 48, 97] 10 = true ∧
    dfaQuote.testMatch [39] = some true ∧
    dfaQuote.jitMatch [39] = none := by decide

/-- C9: Neither `addEdge` validates the target: with the `from` state in
range (and, for the DFA, the label fresh) the edge is stored for an
arbitrary target `t`, existing or not.  The claimed abort does not
happen. -/
theorem C9_addEdge_target_unchecked (nfa : NFA) (dfa : DFA) (f c t : Nat)
    (hn : f < nfa.states.length) (hd : f < dfa.states.length)
    (hfree : lookupEdge (dfa.states.getD f []) c = none) :
    nfa.addEdge f (some c) t
      = some { nfa with states := nfa.states.set f (nfa.states.getD f [] ++ [(some c, t)]) } ∧
    dfa.addEdge f c t
      = some { dfa with states := dfa.states.set f (dfa.states.getD f [] ++ [(c, t)]) } := by
  constructor
  · exact NFA.addEdge_eq hn
  · have hgd : dfa.states.getD f [] = dfa.states[f] := by
      simp [List.getD_eq_getElem?_getD, List.getElem?_eq_getElem hd]
    unfold DFA.addEdge
    rw [dif_pos hd]
    rw [hgd] at hfree
    rw [hfree]
    simp only []
    rw [hgd]

theorem C9_addEdge_target_unchecked_witness :
    NFA.addEdge ⟨[[]], some 0, {0}⟩ 0 (some 97) 5
      = some ⟨[[(some 97, 5)]], some 0, {0}⟩ ∧
    DFA.addEdge ⟨[[]], some 0, {0}⟩ 0 97 5
      = some ⟨[[(97, 5)]], some 0, {0}⟩ :=
  have h := C9_addEdge_target_unchecked ⟨[[]], some 0, {0}⟩ ⟨[[]], some 0, {0}⟩
    0 97 5 (by decide) (by decide) (by decide)
  ⟨h.1.trans (by decide), h.2.trans (by decide)⟩

/-- An edge to the nonexistent state 99 is accepted by both builders, so
"edge target out of range aborts with a diagnostic" is false of the
code. -/
theorem C9_addEdge_target_unchecked_counterexample :
    NFA.addEdge ⟨[[]], some 0, {0}⟩ 0 (some 97) 99 ≠ none ∧
    DFA.addEdge ⟨[[]], some 0, {0}⟩ 0 97 99 ≠ none := by decide

/-- C10: A successful `merge(dst, anchor, src)` is a frame extension of
`dst`: its start and accept set survive, every pre-existing state's edge
list survives except the anchor's, which gains exactly the one epsilon
edge to the renumbered copy of `src`'s start, and the returned exit is a
fresh state with no outgoing edges. -/
theorem C10_merge_frame (dst : NFA) (anchor : Nat) (src : NFA) (M : NFA)
    (exit2 : Nat) (h : merge dst anchor src = some (M, exit2))
    (hanchor : anchor < dst.states.length) :
    M.start = dst.start ∧ M.accept = dst.accept ∧
    (∀ i, i < dst.states.length → i ≠ anchor →
      M.states.getD i [] = dst.states.getD i []) ∧
    (∃ s0, src.start = some s0 ∧
      M.states.getD anchor []
        = dst.states.getD anchor [] ++ [(none, dst.states.length + s0)]) ∧
    exit2 = dst.states.length + src.states.length ∧
    exit2 < M.states.length ∧
    M.states.getD exit2 [] = [] := by
  obtain ⟨s0, hstart, hs0, hsT, hsacc⟩ := merge_inv h
  obtain ⟨M0, hm0, hmstart, hmacc, hmlen, hmun, hmref, hmcopy, hmexit⟩ :=
    merge_spec dst anchor src s0 hstart hs0 hsT hsacc hanchor
  rw [h] at hm0
  simp only [Option.some.injEq, Prod.mk.injEq] at hm0
  obtain ⟨rfl, rfl⟩ := hm0
  exact ⟨hmstart, hmacc, fun i hi hne => hmun i hi hne, ⟨s0, hstart, hmref⟩,
    rfl, by omega, hmexit⟩

theorem C10_merge_frame_witness :
    mergedChar.states.getD 3 [] = [] ∧ mergedChar.accept = nfaFresh.accept :=
  have h := C10_merge_frame nfaFresh 0 nfaChar mergedChar 3 (by decide) (by decide)
  ⟨h.2.2.2.2.2.2, h.2.1⟩

end NfaCc
